import Mathlib

/-
Verification of the CLI task tracker persistence core (todo-go/main.go).

The development shallowly embeds:
  * the record codec (CSV encoding via Go's encoding/csv with default
    configuration: comma separator, no CRLF output, lazy-quotes off,
    FieldsPerRecord inferred from the first record, blank lines skipped,
    a terminal "\r\n" of each input line normalized to "\n"),
  * the field codecs (strconv.Itoa/Atoi, time.Format/Parse with the
    RFC3339 layout, strconv.FormatBool/ParseBool),
  * the task store (loadTasks, saveTasks, getNextID) — saveTasks is
    modelled exactly as written: it opens the file O_RDWR|O_CREATE
    WITHOUT O_TRUNC and rewrites from offset 0, so bytes of a longer
    previous content survive past the newly written length,
  * the pure cores of the add/list/complete/delete commands.

File contents are lists of characters; fallible operations return Option
or Except.  All definitions are executable.
-/

deriving instance DecidableEq for Except

namespace TodoGo

abbrev CsvField := List Char
abbrev CsvRecord := List CsvField

/-- Characters legal inside a field for lossless transport: the Go csv
reader rewrites a bare "\r\n" pair to "\n", so fields are restricted to
carriage-return-free, newline-free text (the spec's "no embedded
record-delimiter"). -/
def cleanF (f : CsvField) : Prop := '\r' ∉ f ∧ '\n' ∉ f

/-- Go unicode.IsSpace on the ASCII/Latin-1 range (sufficient here: it is
only consulted for the first character of a field, and extra quoting is
lossless anyway). -/
def goIsSpace (c : Char) : Bool :=
  c = ' ' || c = '\t' || c = '\n' || c = '\x0b' || c = '\x0c' || c = '\r' ||
    c = '\x85' || c = ' '

/-- Go csv.Writer.fieldNeedsQuotes with the default comma separator. -/
def fieldNeedsQuotes (f : CsvField) : Bool :=
  match f with
  | [] => false
  | c :: _ =>
    decide (f = ['\\', '.']) ||
      f.any (fun d => d = ',' || d = '"' || d = '\r' || d = '\n') ||
      goIsSpace c

/-- Inside a quoted field the writer doubles every quote and copies every
other character verbatim (UseCRLF is false). -/
def escapeQuotes : List Char → List Char
  | [] => []
  | c :: rest =>
    if c = '"' then '"' :: '"' :: escapeQuotes rest else c :: escapeQuotes rest

/-- One encoded field, quoted exactly when Go would quote it. -/
def writeField (f : CsvField) : List Char :=
  if fieldNeedsQuotes f then '"' :: (escapeQuotes f ++ ['"']) else f

/-- Comma-joined encoded fields of one record, without the newline. -/
def writeRecordAux : CsvRecord → List Char
  | [] => []
  | [f] => writeField f
  | f :: f2 :: fs => writeField f ++ ',' :: writeRecordAux (f2 :: fs)

/-- One encoded record line, newline terminated (csv.Writer.Write). -/
def writeRecord (r : CsvRecord) : List Char := writeRecordAux r ++ ['\n']

/-- Concatenation of encoded record lines (successive Write calls). -/
def writeAll : List CsvRecord → List Char
  | [] => []
  | r :: rs => writeRecord r ++ writeAll rs

/-- The Go csv reader reads line by line and drops the '\r' of a
terminal "\r\n"; globally that replaces every "\r\n" pair by "\n". -/
def normCRLF : List Char → List Char
  | [] => []
  | [c] => [c]
  | c :: c2 :: rest =>
    if c = '\r' ∧ c2 = '\n' then '\n' :: normCRLF rest
    else c :: normCRLF (c2 :: rest)

/-- Reader state: at a record boundary, at a field boundary, inside an
unquoted field, inside a quoted field, or just past a quote that was seen
inside a quoted field. -/
inductive Mode : Type
  | rstart : Mode
  | fstart : Mode
  | plain (acc : List Char) : Mode
  | quoted (acc : List Char) : Mode
  | qend (acc : List Char) : Mode

/-- Character-level transcription of Go csv.Reader.readRecord (default
configuration, LazyQuotes off): blank lines are skipped, a quote inside an
unquoted field or a lone quote inside a quoted field is an error (none),
"" inside a quoted field is a literal quote, EOF ends a pending record. -/
def runCsv : List Char → Mode → List CsvRecord → CsvRecord → Option (List CsvRecord)
  | [], Mode.rstart, recs, _ => some recs
  | [], Mode.fstart, recs, fields => some (recs ++ [fields ++ [[]]])
  | [], Mode.plain acc, recs, fields => some (recs ++ [fields ++ [acc]])
  | [], Mode.quoted _, _, _ => none
  | [], Mode.qend acc, recs, fields => some (recs ++ [fields ++ [acc]])
  | c :: rest, Mode.rstart, recs, _ =>
    if c = '\n' then runCsv rest Mode.rstart recs []
    else if c = '"' then runCsv rest (Mode.quoted []) recs []
    else if c = ',' then runCsv rest Mode.fstart recs [[]]
    else runCsv rest (Mode.plain [c]) recs []
  | c :: rest, Mode.fstart, recs, fields =>
    if c = '\n' then runCsv rest Mode.rstart (recs ++ [fields ++ [[]]]) []
    else if c = '"' then runCsv rest (Mode.quoted []) recs fields
    else if c = ',' then runCsv rest Mode.fstart recs (fields ++ [[]])
    else runCsv rest (Mode.plain [c]) recs fields
  | c :: rest, Mode.plain acc, recs, fields =>
    if c = '\n' then runCsv rest Mode.rstart (recs ++ [fields ++ [acc]]) []
    else if c = ',' then runCsv rest Mode.fstart recs (fields ++ [acc])
    else if c = '"' then none
    else runCsv rest (Mode.plain (acc ++ [c])) recs fields
  | c :: rest, Mode.quoted acc, recs, fields =>
    if c = '"' then runCsv rest (Mode.qend acc) recs fields
    else runCsv rest (Mode.quoted (acc ++ [c])) recs fields
  | c :: rest, Mode.qend acc, recs, fields =>
    if c = '"' then runCsv rest (Mode.quoted (acc ++ ['"'])) recs fields
    else if c = ',' then runCsv rest Mode.fstart recs (fields ++ [acc])
    else if c = '\n' then runCsv rest Mode.rstart (recs ++ [fields ++ [acc]]) []
    else none

/-- All records of a character stream, or none on a malformed stream. -/
def parseRecords (cs : List Char) : Option (List CsvRecord) :=
  runCsv (normCRLF cs) Mode.rstart [] []

/-- FieldsPerRecord = 0: every later record must have as many fields as
the first. -/
def sameCounts : List CsvRecord → Bool
  | [] => true
  | r :: rs => rs.all (fun x => x.length = r.length)

/-- csv.Reader.ReadAll: all records, or none when the stream is malformed
or a record's field count differs from the first record's. -/
def readAll (cs : List Char) : Option (List CsvRecord) :=
  match parseRecords cs with
  | none => none
  | some rs => if sameCounts rs then some rs else none

/-! ### Field codecs: strconv.Itoa / Atoi -/

/-- The character of one decimal digit. -/
def natDigitChar : Nat → Char
  | 0 => '0' | 1 => '1' | 2 => '2' | 3 => '3' | 4 => '4'
  | 5 => '5' | 6 => '6' | 7 => '7' | 8 => '8' | _ => '9'

/-- Big-endian decimal digits of a positive number; the fuel argument
only bounds the recursion and any fuel ≥ n is enough. -/
def natCharsAux : Nat → Nat → List Char
  | 0, _ => []
  | fuel + 1, n =>
    if n = 0 then [] else natCharsAux fuel (n / 10) ++ [natDigitChar (n % 10)]

/-- Decimal rendering of a natural number. -/
def natChars (n : Nat) : List Char := if n = 0 then ['0'] else natCharsAux n n

/-- strconv.Itoa. -/
def itoa (n : Int) : List Char :=
  if n < 0 then '-' :: natChars n.natAbs else natChars n.natAbs

/-- The numeric value of a decimal digit character, if it is one. -/
def charDigit (c : Char) : Option Nat :=
  if 48 ≤ c.toNat ∧ c.toNat ≤ 57 then some (c.toNat - 48) else none

/-- Left-to-right accumulation of decimal digits; none at the first
non-digit character. -/
def digitsToNatAux : Nat → List Char → Option Nat
  | acc, [] => some acc
  | acc, c :: rest =>
    match charDigit c with
    | none => none
    | some d => digitsToNatAux (acc * 10 + d) rest

/-- A nonempty all-digit string as a number. -/
def digitsToNat : List Char → Option Nat
  | [] => none
  | c :: rest => digitsToNatAux 0 (c :: rest)

/-- strconv.Atoi: optional sign then decimal digits.  (The model uses
unbounded integers; Go's 64-bit range clamping is out of scope.) -/
def atoi : List Char → Option Int
  | [] => none
  | c :: rest =>
    if c = '-' then (digitsToNat rest).map (fun m => -(m : Int))
    else if c = '+' then (digitsToNat rest).map (fun m => (m : Int))
    else (digitsToNat (c :: rest)).map (fun m => (m : Int))

/-! ### Field codecs: time.Format / time.Parse with the RFC3339 layout -/

/-- A timezone-aware wall-clock timestamp at the one-second granularity
the RFC3339 layout stores: calendar fields plus a zone offset east of UTC
in minutes. -/
structure DateTime where
  year : Nat
  month : Nat
  day : Nat
  hour : Nat
  minute : Nat
  second : Nat
  offset : Int
deriving DecidableEq

/-- The zero time.Time: January 1, year 1, 00:00:00 UTC. -/
def zeroDateTime : DateTime := ⟨1, 1, 1, 0, 0, 0, 0⟩

/-- Gregorian leap year rule (as in Go's time package). -/
def isLeap (y : Nat) : Bool := (y % 4 = 0 && y % 100 ≠ 0) || y % 400 = 0

/-- Days in a month (0 for an invalid month number). -/
def daysInMonth (y m : Nat) : Nat :=
  match m with
  | 1 => 31 | 3 => 31 | 5 => 31 | 7 => 31 | 8 => 31 | 10 => 31 | 12 => 31
  | 4 => 30 | 6 => 30 | 9 => 30 | 11 => 30
  | 2 => if isLeap y then 29 else 28
  | _ => 0

/-- A timestamp the RFC3339 layout represents faithfully. -/
def validDT (dt : DateTime) : Prop :=
  dt.year ≤ 9999 ∧ 1 ≤ dt.month ∧ dt.month ≤ 12 ∧ 1 ≤ dt.day ∧
    dt.day ≤ daysInMonth dt.year dt.month ∧ dt.hour ≤ 23 ∧
    dt.minute ≤ 59 ∧ dt.second ≤ 59 ∧ dt.offset.natAbs ≤ 1439

instance (dt : DateTime) : Decidable (validDT dt) := by
  unfold validDT; infer_instance

/-- Two-digit zero-padded decimal. -/
def pad2 (n : Nat) : List Char := [natDigitChar (n / 10 % 10), natDigitChar (n % 10)]

/-- Four-digit zero-padded decimal. -/
def pad4 (n : Nat) : List Char :=
  [natDigitChar (n / 1000 % 10), natDigitChar (n / 100 % 10),
    natDigitChar (n / 10 % 10), natDigitChar (n % 10)]

/-- The zone suffix of the "Z07:00" layout verb: "Z" for a zero offset,
otherwise a sign and zero-padded hours and minutes. -/
def zoneChars (off : Int) : List Char :=
  if off = 0 then ['Z']
  else (if off < 0 then '-' else '+') ::
    (pad2 (off.natAbs / 60) ++ ':' :: pad2 (off.natAbs % 60))

/-- time.Time.Format with the RFC3339 layout (no fractional second). -/
def formatRFC3339 (dt : DateTime) : List Char :=
  pad4 dt.year ++ '-' :: pad2 dt.month ++ '-' :: pad2 dt.day ++
    'T' :: pad2 dt.hour ++ ':' :: pad2 dt.minute ++ ':' :: pad2 dt.second ++
    zoneChars dt.offset

/-- Value of two digit characters, if both are digits. -/
def read2 (a b : Char) : Option Nat :=
  match charDigit a, charDigit b with
  | some x, some y => some (10 * x + y)
  | _, _ => none

/-- Value of four digit characters, if all are digits. -/
def read4 (a b c d : Char) : Option Nat :=
  match charDigit a, charDigit b, charDigit c, charDigit d with
  | some w, some x, some y, some z => some (1000 * w + 100 * x + 10 * y + z)
  | _, _, _, _ => none

/-- An optional fractional second: '.' must be followed by at least one
digit, which is consumed and discarded. -/
def skipFrac : List Char → Option (List Char)
  | [] => some []
  | c :: rest =>
    if c = '.' then
      if (rest.takeWhile (fun d => decide (48 ≤ d.toNat ∧ d.toNat ≤ 57))).isEmpty
      then none
      else some (rest.dropWhile (fun d => decide (48 ≤ d.toNat ∧ d.toNat ≤ 57)))
    else some (c :: rest)

/-- The zone suffix: "Z", or a signed hour:minute offset with the range
checks of Go's strict RFC3339 parser. -/
def parseZone : List Char → Option Int
  | ['Z'] => some 0
  | [sg, h1, h2, cl, m1, m2] =>
    if cl = ':' then
      match read2 h1 h2, read2 m1 m2 with
      | some h, some m =>
        if h ≤ 23 ∧ m ≤ 59 then
          if sg = '+' then some ((h * 60 + m : Nat) : Int)
          else if sg = '-' then some (-((h * 60 + m : Nat) : Int))
          else none
        else none
      | _, _ => none
    else none
  | _ => none

/-- time.Parse with the RFC3339 layout (Go's strict RFC3339 fast path):
fixed-position date and clock digits, field range checks including the
day-of-month bound, optional fraction, then the zone suffix. -/
def parseRFC3339 : List Char → Option DateTime
  | y1 :: y2 :: y3 :: y4 :: sa :: mo1 :: mo2 :: sb :: d1 :: d2 :: sc :: h1 :: h2 ::
      sd :: mi1 :: mi2 :: se :: s1 :: s2 :: rest =>
    if sa = '-' ∧ sb = '-' ∧ sc = 'T' ∧ sd = ':' ∧ se = ':' then
      match read4 y1 y2 y3 y4, read2 mo1 mo2, read2 d1 d2,
          read2 h1 h2, read2 mi1 mi2, read2 s1 s2 with
      | some y, some mo, some d, some h, some mi, some s =>
        if 1 ≤ mo ∧ mo ≤ 12 ∧ 1 ≤ d ∧ d ≤ daysInMonth y mo ∧
            h ≤ 23 ∧ mi ≤ 59 ∧ s ≤ 59 then
          match skipFrac rest with
          | none => none
          | some rest2 =>
            match parseZone rest2 with
            | none => none
            | some off => some ⟨y, mo, d, h, mi, s, off⟩
        else none
      | _, _, _, _, _, _ => none
    else none
  | _ => none

/-! ### Field codecs: strconv.FormatBool / ParseBool -/

/-- strconv.FormatBool. -/
def formatBool (b : Bool) : List Char :=
  if b then ['t', 'r', 'u', 'e'] else ['f', 'a', 'l', 's', 'e']

/-- strconv.ParseBool: the twelve accepted literals. -/
def parseBool (cs : List Char) : Option Bool :=
  if cs = ['1'] ∨ cs = ['t'] ∨ cs = ['T'] ∨ cs = ['T', 'R', 'U', 'E'] ∨
      cs = ['t', 'r', 'u', 'e'] ∨ cs = ['T', 'r', 'u', 'e'] then some true
  else if cs = ['0'] ∨ cs = ['f'] ∨ cs = ['F'] ∨ cs = ['F', 'A', 'L', 'S', 'E'] ∨
      cs = ['f', 'a', 'l', 's', 'e'] ∨ cs = ['F', 'a', 'l', 's', 'e'] then some false
  else none

/-! ### The Task data model and record codec (todo-go/main.go) -/

/-- The Task struct. -/
structure Task where
  id : Int
  description : List Char
  createdAt : DateTime
  isCompleted : Bool
deriving DecidableEq

/-- The header record written first by saveTasks. -/
def headerRecord : CsvRecord :=
  [['I', 'D'],
   ['D', 'e', 's', 'c', 'r', 'i', 'p', 't', 'i', 'o', 'n'],
   ['C', 'r', 'e', 'a', 't', 'e', 'd', 'A', 't'],
   ['I', 's', 'C', 'o', 'm', 'p', 'l', 'e', 't', 'e', 'd']]

/-- The four encoded fields of one task, as passed to writer.Write in
saveTasks: decimal ID, description verbatim, RFC3339 timestamp,
true/false flag. -/
def encodeTask (t : Task) : CsvRecord :=
  [itoa t.id, t.description, formatRFC3339 t.createdAt, formatBool t.isCompleted]

/-- Field decoding of one record in the loadTasks loop: each of
Atoi/Parse/ParseBool has its error ignored, leaving the type's zero value
(0, the zero time, false). -/
def decodeRecord (r : CsvRecord) : Task :=
  { id := (atoi (r.getD 0 [])).getD 0
    description := r.getD 1 []
    createdAt := (parseRFC3339 (r.getD 2 [])).getD zeroDateTime
    isCompleted := (parseBool (r.getD 3 [])).getD false }

/-! ### The task store: loadTasks / saveTasks / getNextID -/

/-- How a load can fail: a csv.ReadAll error (surfaced as the wrapped
"failed to read CSV" error), or an index-out-of-range panic when the
records are uniformly shorter than four fields. -/
inductive LoadErr : Type
  | decodeErr : LoadErr
  | panicErr : LoadErr
deriving DecidableEq

/-- loadTasks on a given file content: ReadAll, skip the first record
(the header), decode every later record leniently.  Indexing record[0..3]
requires at least four fields per record. -/
def loadTasks (file : List Char) : Except LoadErr (List Task) :=
  match readAll file with
  | none => Except.error LoadErr.decodeErr
  | some [] => Except.ok []
  | some (_ :: rs) =>
    if rs.all (fun r => 4 ≤ r.length) then Except.ok (rs.map decodeRecord)
    else Except.error LoadErr.panicErr

/-- The bytes written by saveTasks: the header line followed by one
encoded record per task, in order. -/
def saveContent (tasks : List Task) : List Char :=
  writeAll (headerRecord :: tasks.map encodeTask)

/-- saveTasks opens with O_RDWR|O_CREATE and no O_TRUNC, and rewrites
from offset 0: the new bytes overwrite the old ones in place, and any old
bytes past the newly written length survive. -/
def saveTasks (tasks : List Task) (old : List Char) : List Char :=
  saveContent tasks ++ old.drop (saveContent tasks).length

/-- The loop of getNextID: the running maximum of the IDs, from 0. -/
def maxIdAcc (tasks : List Task) : Int :=
  tasks.foldl (fun maxID t => if maxID < t.id then t.id else maxID) 0

/-- getNextID: the loop maximum plus one. -/
def getNextID (tasks : List Task) : Int := maxIdAcc tasks + 1

/-! ### Pure cores of the add / list / complete / delete commands -/

/-- addCmd's list transformation: append a fresh pending task whose ID is
getNextID of the loaded list. -/
def addTask (desc : List Char) (now : DateTime) (tasks : List Task) : List Task :=
  tasks ++ [{ id := getNextID tasks, description := desc, createdAt := now,
              isCompleted := false }]

/-- completeCmd's loop: mark the first task with the given ID completed
and stop (the loop breaks); the Boolean is the found flag. -/
def completeTasks (i : Int) : List Task → List Task × Bool
  | [] => ([], false)
  | t :: rest =>
    if t.id = i then ({ t with isCompleted := true } :: rest, true)
    else
      let p := completeTasks i rest
      (t :: p.1, p.2)

/-- deleteCmd's loop: keep every task whose ID differs, never breaking,
so every task with the given ID is removed; the Boolean is the found
flag. -/
def deleteTasks (i : Int) : List Task → List Task × Bool
  | [] => ([], false)
  | t :: rest =>
    let p := deleteTasks i rest
    if t.id = i then (p.1, true) else (t :: p.1, p.2)

/-- listCmd's row selection: without the all flag completed tasks are
skipped, with it every task is shown. -/
def listRows (showAll : Bool) : List Task → List Task
  | [] => []
  | t :: rest =>
    if !showAll && t.isCompleted then listRows showAll rest
    else t :: listRows showAll rest

/-- Errors surfaced by the complete and delete commands. -/
inductive CmdErr : Type
  | loadErr (e : LoadErr) : CmdErr
  | notFound : CmdErr
deriving DecidableEq

/-- completeCmd acting on the file: load, mark the first match, and save
only when the ID was found; on a miss the command errors before any
write, leaving the file untouched. -/
def completeCmd (i : Int) (file : List Char) : List Char × Option CmdErr :=
  match loadTasks file with
  | Except.error e => (file, some (CmdErr.loadErr e))
  | Except.ok tasks =>
    let p := completeTasks i tasks
    if p.2 then (saveTasks p.1 file, none) else (file, some CmdErr.notFound)

/-- deleteCmd acting on the file: load, drop every match, and save only
when the ID was found; on a miss the command errors before any write,
leaving the file untouched. -/
def deleteCmd (i : Int) (file : List Char) : List Char × Option CmdErr :=
  match loadTasks file with
  | Except.error e => (file, some (CmdErr.loadErr e))
  | Except.ok tasks =>
    let p := deleteTasks i tasks
    if p.2 then (saveTasks p.1 file, none) else (file, some CmdErr.notFound)

/-! ### Store histories over the in-memory task list -/

/-- One command invocation's list transformation (the part between a
load and the following save). -/
inductive Op : Type
  | add (desc : List Char) (now : DateTime) : Op
  | complete (i : Int) : Op
  | delete (i : Int) : Op

/-- Applying one operation to the in-memory list.  A complete or delete
of an absent ID errors without saving, which also leaves the list as it
was, so the unconditional transformation is faithful. -/
def applyOp (tasks : List Task) : Op → List Task
  | Op.add d now => addTask d now tasks
  | Op.complete i => (completeTasks i tasks).1
  | Op.delete i => (deleteTasks i tasks).1

/-- The task list after a history of operations from the empty store. -/
def execOps (ops : List Op) : List Task := ops.foldl applyOp []

/-- Whether an operation is an add. -/
def isAdd : Op → Bool
  | Op.add _ _ => true
  | _ => false

/-- A Task the data model calls valid: positive integer ID, description
free of record-delimiter characters, RFC3339-representable timestamp. -/
def validTask (t : Task) : Prop :=
  0 < t.id ∧ cleanF t.description ∧ validDT t.createdAt

/-- Modelled from the spec's words "returns 1 + max(ids)": the plain
maximum of the IDs of a nonempty list (0 for an empty one), used to
compare getNextID against the spec's description. -/
def specMaxId : List Task → Int
  | [] => 0
  | t :: ts => ts.foldl (fun a u => max a u.id) t.id

/-- A sample timestamp (2020-01-01T00:00:00Z). -/
def dtSample : DateTime := ⟨2020, 1, 1, 0, 0, 0, 0⟩

/-- Sample task with ID 1. -/
def task1 : Task := ⟨1, ['a'], dtSample, false⟩

/-- Sample task with ID 2. -/
def task2 : Task := ⟨2, ['b'], dtSample, false⟩

instance (f : CsvField) : Decidable (cleanF f) := by
  unfold cleanF; infer_instance

instance (t : Task) : Decidable (validTask t) := by
  unfold validTask; infer_instance

/-- A well-formed record whose ID, timestamp and flag fields are all
malformed (non-integer, unparseable, non-boolean). -/
def corruptRecord : CsvRecord := [['a', 'b', 'c'], ['d'], ['x'], ['y']]

/-- One good record and one field-corrupted record, both well-formed
four-field records. -/
def mixedRecords : List CsvRecord := [encodeTask task1, corruptRecord]

/-- addCmd acting on the file: load, append the fresh task, save; a
failed load errors before any task is created or saved. -/
def addCmd (d : List Char) (now : DateTime) (file : List Char) :
    List Char × Option CmdErr :=
  match loadTasks file with
  | Except.error e => (file, some (CmdErr.loadErr e))
  | Except.ok tasks => (saveTasks (addTask d now tasks) file, none)

/-- The file content after one command invocation. -/
def runCmd : List Char → Op → List Char
  | file, Op.add d now => (addCmd d now file).1
  | file, Op.complete i => (completeCmd i file).1
  | file, Op.delete i => (deleteCmd i file).1

/-- The on-disk file after a history of command invocations against an
initially empty (freshly created) file. -/
def execCmds (ops : List Op) : List Char := ops.foldl runCmd []

/-- The IDs handed out by the add commands of a history, in order, at the
file level: each add assigns getNextID of the list its own load returns;
an add whose load fails assigns nothing. -/
def assignedIDsFile : List Char → List Op → List Int
  | _, [] => []
  | file, Op.add d now :: rest =>
    (match loadTasks file with
     | Except.ok ts => getNextID ts :: assignedIDsFile (runCmd file (Op.add d now)) rest
     | Except.error _ => assignedIDsFile (runCmd file (Op.add d now)) rest)
  | file, Op.complete i :: rest => assignedIDsFile (runCmd file (Op.complete i)) rest
  | file, Op.delete i :: rest => assignedIDsFile (runCmd file (Op.delete i)) rest

/-- An operation that is not a delete and whose payload (for an add) is a
record-delimiter-free description with a representable timestamp. -/
def goodNonDelete : Op → Prop
  | Op.add d now => cleanF d ∧ validDT now
  | Op.complete _ => True
  | Op.delete _ => False

instance (op : Op) : Decidable (goodNonDelete op) :=
  match op with
  | Op.add d now => inferInstanceAs (Decidable (cleanF d ∧ validDT now))
  | Op.complete _ => inferInstanceAs (Decidable True)
  | Op.delete _ => inferInstanceAs (Decidable False)

/-- Every task of the list has a record-delimiter-free description and a
representable timestamp. -/
def cleanTasks (ts : List Task) : Prop :=
  ∀ t ∈ ts, cleanF t.description ∧ validDT t.createdAt

/-- The file shapes reachable by delete-free histories: the initial empty
file, or the content of the last save followed by leftover newline bytes
(each completed task shortens the content by one byte, stranding one
newline of the previous content). -/
def FileOk (ts : List Task) (file : List Char) : Prop :=
  (file = [] ∧ ts = []) ∨ ∃ k, file = saveContent ts ++ List.replicate k '\n'

/-- The history whose delete garbles the record bytes: the misaligned
stale tail of the first delete chops the ID digit off the surviving
record, the second delete then removes the only record with a positive
ID, and the final add reassigns the deleted ID 1. -/
def garbleOps : List Op :=
  [Op.add ['a'] dtSample, Op.add ['b', 'b'] dtSample, Op.delete 1, Op.delete 2,
   Op.add ['c'] dtSample]

/-- A delete-free history: add, complete the task, add again. -/
def noDeleteOps : List Op :=
  [Op.add ['a'] dtSample, Op.complete 1, Op.add ['b'] dtSample]

/-- The history of the resurrection bug: add a, add b, delete 1; the
shorter save leaves the old second record's bytes in place. -/
def resurrectOps : List Op :=
  [Op.add ['a'] dtSample, Op.add ['b'] dtSample, Op.delete 1]


/-- The characters that end or structure an unquoted field. -/
def plainOk (f : CsvField) : Prop := ∀ c ∈ f, c ≠ ',' ∧ c ≠ '\n' ∧ c ≠ '"'

/-! ## Single-step reader lemmas -/

theorem runCsv_rstart_newline (rest : List Char) (recs : List CsvRecord) (fields : CsvRecord) :
    runCsv ('\n' :: rest) Mode.rstart recs fields = runCsv rest Mode.rstart recs [] := by
  simp [runCsv]

theorem runCsv_rstart_eq_fstart {c : Char} (hc : c ≠ '\n') (rest : List Char)
    (recs : List CsvRecord) (fields : CsvRecord) :
    runCsv (c :: rest) Mode.rstart recs fields = runCsv (c :: rest) Mode.fstart recs [] := by
  by_cases h2 : c = '"'
  · subst h2; simp [runCsv]
  · by_cases h3 : c = ','
    · subst h3; simp [runCsv]
    · simp [runCsv, hc, h2, h3]

theorem runCsv_fstart_newline (rest : List Char) (recs : List CsvRecord) (fields : CsvRecord) :
    runCsv ('\n' :: rest) Mode.fstart recs fields =
      runCsv rest Mode.rstart (recs ++ [fields ++ [[]]]) [] := by
  simp [runCsv]

theorem runCsv_fstart_quote (rest : List Char) (recs : List CsvRecord) (fields : CsvRecord) :
    runCsv ('"' :: rest) Mode.fstart recs fields = runCsv rest (Mode.quoted []) recs fields := by
  simp [runCsv]

theorem runCsv_fstart_comma (rest : List Char) (recs : List CsvRecord) (fields : CsvRecord) :
    runCsv (',' :: rest) Mode.fstart recs fields = runCsv rest Mode.fstart recs (fields ++ [[]]) := by
  simp [runCsv]

theorem runCsv_fstart_other {c : Char} (h1 : c ≠ '\n') (h2 : c ≠ '"') (h3 : c ≠ ',')
    (rest : List Char) (recs : List CsvRecord) (fields : CsvRecord) :
    runCsv (c :: rest) Mode.fstart recs fields = runCsv rest (Mode.plain [c]) recs fields := by
  simp [runCsv, h1, h2, h3]

theorem runCsv_plain_newline (rest acc : List Char) (recs : List CsvRecord) (fields : CsvRecord) :
    runCsv ('\n' :: rest) (Mode.plain acc) recs fields =
      runCsv rest Mode.rstart (recs ++ [fields ++ [acc]]) [] := by
  simp [runCsv]

theorem runCsv_plain_comma (rest acc : List Char) (recs : List CsvRecord) (fields : CsvRecord) :
    runCsv (',' :: rest) (Mode.plain acc) recs fields =
      runCsv rest Mode.fstart recs (fields ++ [acc]) := by
  simp [runCsv]

theorem runCsv_plain_other {c : Char} (h1 : c ≠ '\n') (h2 : c ≠ ',') (h3 : c ≠ '"')
    (rest acc : List Char) (recs : List CsvRecord) (fields : CsvRecord) :
    runCsv (c :: rest) (Mode.plain acc) recs fields =
      runCsv rest (Mode.plain (acc ++ [c])) recs fields := by
  simp [runCsv, h1, h2, h3]

theorem runCsv_quoted_quote (rest acc : List Char) (recs : List CsvRecord) (fields : CsvRecord) :
    runCsv ('"' :: rest) (Mode.quoted acc) recs fields = runCsv rest (Mode.qend acc) recs fields := by
  simp [runCsv]

theorem runCsv_quoted_other {c : Char} (hc : c ≠ '"') (rest acc : List Char)
    (recs : List CsvRecord) (fields : CsvRecord) :
    runCsv (c :: rest) (Mode.quoted acc) recs fields =
      runCsv rest (Mode.quoted (acc ++ [c])) recs fields := by
  simp [runCsv, hc]

theorem runCsv_qend_quote (rest acc : List Char) (recs : List CsvRecord) (fields : CsvRecord) :
    runCsv ('"' :: rest) (Mode.qend acc) recs fields =
      runCsv rest (Mode.quoted (acc ++ ['"'])) recs fields := by
  simp [runCsv]

theorem runCsv_qend_comma (rest acc : List Char) (recs : List CsvRecord) (fields : CsvRecord) :
    runCsv (',' :: rest) (Mode.qend acc) recs fields =
      runCsv rest Mode.fstart recs (fields ++ [acc]) := by
  simp [runCsv]

theorem runCsv_qend_newline (rest acc : List Char) (recs : List CsvRecord) (fields : CsvRecord) :
    runCsv ('\n' :: rest) (Mode.qend acc) recs fields =
      runCsv rest Mode.rstart (recs ++ [fields ++ [acc]]) [] := by
  simp [runCsv]

/-! ## Feeding a whole encoded field to the reader -/

theorem not_needsQuotes_plainOk {f : CsvField} (h : fieldNeedsQuotes f = false) :
    plainOk f := by
  intro c hc
  match f, hc with
  | c0 :: rest, hc =>
    simp only [fieldNeedsQuotes, Bool.or_eq_false_iff, List.any_eq_false] at h
    have h2 := h.1.2 c hc
    simp only [Bool.or_eq_true, decide_eq_true_eq, not_or] at h2
    exact ⟨h2.1.1.1, h2.2, h2.1.1.2⟩

theorem runCsv_plain_feed (f : List Char) (hf : plainOk f) :
    ∀ (acc cs : List Char) (recs : List CsvRecord) (fields : CsvRecord),
    runCsv (f ++ cs) (Mode.plain acc) recs fields =
      runCsv cs (Mode.plain (acc ++ f)) recs fields := by
  induction f with
  | nil => intro acc cs recs fields; simp
  | cons c f' ih =>
    intro acc cs recs fields
    have hc := hf c (List.mem_cons_self c f')
    have ih2 := ih (fun d hd => hf d (List.mem_cons_of_mem c hd))
    rw [List.cons_append, runCsv_plain_other hc.2.1 hc.1 hc.2.2, ih2]
    simp

theorem runCsv_quoted_feed (f : List Char) :
    ∀ (acc cs : List Char) (recs : List CsvRecord) (fields : CsvRecord),
    runCsv (escapeQuotes f ++ cs) (Mode.quoted acc) recs fields =
      runCsv cs (Mode.quoted (acc ++ f)) recs fields := by
  induction f with
  | nil => intro acc cs recs fields; simp [escapeQuotes]
  | cons c f' ih =>
    intro acc cs recs fields
    by_cases hc : c = '"'
    · subst hc
      rw [show escapeQuotes ('"' :: f') = '"' :: '"' :: escapeQuotes f' by simp [escapeQuotes]]
      rw [List.cons_append, List.cons_append, runCsv_quoted_quote, runCsv_qend_quote, ih]
      simp
    · rw [show escapeQuotes (c :: f') = c :: escapeQuotes f' by simp [escapeQuotes, hc]]
      rw [List.cons_append, runCsv_quoted_other hc, ih]
      simp

theorem runCsv_field_comma (f : CsvField) (hf : cleanF f) (cs : List Char)
    (recs : List CsvRecord) (fields : CsvRecord) :
    runCsv (writeField f ++ ',' :: cs) Mode.fstart recs fields =
      runCsv cs Mode.fstart recs (fields ++ [f]) := by
  unfold writeField
  by_cases hq : fieldNeedsQuotes f
  · rw [if_pos hq, List.cons_append, List.append_assoc, List.singleton_append,
      runCsv_fstart_quote, runCsv_quoted_feed, runCsv_quoted_quote, runCsv_qend_comma]
    simp
  · rw [if_neg hq]
    have hp := not_needsQuotes_plainOk (by simp at hq; exact hq)
    match f with
    | [] => rw [List.nil_append, runCsv_fstart_comma]
    | c :: f' =>
      have hc := hp c (List.mem_cons_self c f')
      rw [List.cons_append, runCsv_fstart_other hc.2.1 hc.2.2 hc.1,
        runCsv_plain_feed f' (fun d hd => hp d (List.mem_cons_of_mem c hd)),
        runCsv_plain_comma]
      simp

theorem runCsv_field_newline (f : CsvField) (hf : cleanF f) (cs : List Char)
    (recs : List CsvRecord) (fields : CsvRecord) :
    runCsv (writeField f ++ '\n' :: cs) Mode.fstart recs fields =
      runCsv cs Mode.rstart (recs ++ [fields ++ [f]]) [] := by
  unfold writeField
  by_cases hq : fieldNeedsQuotes f
  · rw [if_pos hq, List.cons_append, List.append_assoc, List.singleton_append,
      runCsv_fstart_quote, runCsv_quoted_feed, runCsv_quoted_quote, runCsv_qend_newline]
    simp
  · rw [if_neg hq]
    have hp := not_needsQuotes_plainOk (by simp at hq; exact hq)
    match f with
    | [] => rw [List.nil_append, runCsv_fstart_newline]
    | c :: f' =>
      have hc := hp c (List.mem_cons_self c f')
      rw [List.cons_append, runCsv_fstart_other hc.2.1 hc.2.2 hc.1,
        runCsv_plain_feed f' (fun d hd => hp d (List.mem_cons_of_mem c hd)),
        runCsv_plain_newline]
      simp

theorem runCsv_record (fs : CsvRecord) (hne : fs ≠ []) (hcl : ∀ f ∈ fs, cleanF f) :
    ∀ (cs : List Char) (recs : List CsvRecord) (fields : CsvRecord),
    runCsv (writeRecordAux fs ++ '\n' :: cs) Mode.fstart recs fields =
      runCsv cs Mode.rstart (recs ++ [fields ++ fs]) [] := by
  induction fs with
  | nil => exact absurd rfl hne
  | cons f fs' ih =>
    intro cs recs fields
    match fs' with
    | [] =>
      rw [show writeRecordAux [f] = writeField f from rfl,
        runCsv_field_newline f (hcl f (List.mem_cons_self f []))]
    | f2 :: fs'' =>
      rw [show writeRecordAux (f :: f2 :: fs'') = writeField f ++ ',' :: writeRecordAux (f2 :: fs'')
          from rfl,
        List.append_assoc, List.cons_append,
        runCsv_field_comma f (hcl f (List.mem_cons_self f (f2 :: fs''))) _ recs fields,
        ih (List.cons_ne_nil f2 fs'') (fun d hd => hcl d (List.mem_cons_of_mem f hd))]
      simp

/-- A record line of at least two fields starts with a character other
than a newline (its first byte is a quote, a comma, or a clean field
character). -/
theorem writeRecordAux_head (f f2 : CsvField) (fs : CsvRecord) (hcl : cleanF f)
    (tail : List Char) :
    ∃ c t, writeRecordAux (f :: f2 :: fs) ++ tail = c :: t ∧ c ≠ '\n' := by
  rw [show writeRecordAux (f :: f2 :: fs) = writeField f ++ ',' :: writeRecordAux (f2 :: fs)
      from rfl]
  unfold writeField
  by_cases hq : fieldNeedsQuotes f
  · rw [if_pos hq]
    exact ⟨'"', escapeQuotes f ++ '"' :: ',' :: (writeRecordAux (f2 :: fs) ++ tail),
      by simp, by decide⟩
  · rw [if_neg hq]
    match f with
    | [] => exact ⟨',', writeRecordAux (f2 :: fs) ++ tail, by simp, by decide⟩
    | c :: f' =>
      refine ⟨c, f' ++ ',' :: (writeRecordAux (f2 :: fs) ++ tail), by simp, ?_⟩
      intro hc
      exact hcl.2 (by simp [hc])

theorem runCsv_records (rs : List CsvRecord)
    (h : ∀ r ∈ rs, 2 ≤ r.length ∧ ∀ f ∈ r, cleanF f) :
    ∀ recs : List CsvRecord,
    runCsv (writeAll rs) Mode.rstart recs [] = some (recs ++ rs) := by
  induction rs with
  | nil => intro recs; simp [writeAll, runCsv]
  | cons r rs' ih =>
    intro recs
    have hr := h r (List.mem_cons_self r rs')
    match r, hr with
    | f :: f2 :: fs, hr =>
      rw [show writeAll ((f :: f2 :: fs) :: rs') = writeRecordAux (f :: f2 :: fs) ++
          '\n' :: writeAll rs' by simp [writeAll, writeRecord]]
      obtain ⟨c, t, het, hcne⟩ := writeRecordAux_head f f2 fs
        (hr.2 f (List.mem_cons_self f (f2 :: fs))) ('\n' :: writeAll rs')
      rw [het, runCsv_rstart_eq_fstart hcne, ← het,
        runCsv_record (f :: f2 :: fs) (List.cons_ne_nil f (f2 :: fs)) hr.2,
        ih (fun d hd => h d (List.mem_cons_of_mem _ hd))]
      simp

/-! ## The writer's output needs no CRLF normalization -/

theorem mem_escapeQuotes {c : Char} {f : List Char} (h : c ∈ escapeQuotes f) :
    c ∈ f ∨ c = '"' := by
  induction f with
  | nil => simp [escapeQuotes] at h
  | cons d f' ih =>
    by_cases hd : d = '"'
    · subst hd
      rw [show escapeQuotes ('"' :: f') = '"' :: '"' :: escapeQuotes f' by simp [escapeQuotes]]
        at h
      rcases List.mem_cons.mp h with h | h
      · right; exact h
      · rcases List.mem_cons.mp h with h | h
        · right; exact h
        · rcases ih h with h2 | h2
          · exact Or.inl (List.mem_cons_of_mem _ h2)
          · exact Or.inr h2
    · rw [show escapeQuotes (d :: f') = d :: escapeQuotes f' by simp [escapeQuotes, hd]] at h
      rcases List.mem_cons.mp h with h | h
      · exact Or.inl (by simp [h])
      · rcases ih h with h2 | h2
        · exact Or.inl (List.mem_cons_of_mem _ h2)
        · exact Or.inr h2

theorem writeField_no_cr {f : CsvField} (hcl : cleanF f) : '\r' ∉ writeField f := by
  unfold writeField
  by_cases hq : fieldNeedsQuotes f
  · rw [if_pos hq]
    intro h
    rcases List.mem_cons.mp h with h | h
    · exact absurd h.symm (by decide)
    · rcases List.mem_append.mp h with h | h
      · rcases mem_escapeQuotes h with h2 | h2
        · exact hcl.1 h2
        · exact absurd h2 (by decide)
      · simp at h
  · rw [if_neg hq]; exact hcl.1

theorem writeRecordAux_no_cr {fs : CsvRecord} (hcl : ∀ f ∈ fs, cleanF f) :
    '\r' ∉ writeRecordAux fs := by
  induction fs with
  | nil => simp [writeRecordAux]
  | cons f fs' ih =>
    match fs' with
    | [] =>
      rw [show writeRecordAux [f] = writeField f from rfl]
      exact writeField_no_cr (hcl f (List.mem_cons_self f []))
    | f2 :: fs'' =>
      rw [show writeRecordAux (f :: f2 :: fs'') = writeField f ++ ',' :: writeRecordAux (f2 :: fs'')
          from rfl]
      intro h
      rcases List.mem_append.mp h with h | h
      · exact writeField_no_cr (hcl f (List.mem_cons_self f (f2 :: fs''))) h
      · rcases List.mem_cons.mp h with h | h
        · exact absurd h (by decide)
        · exact ih (fun d hd => hcl d (List.mem_cons_of_mem f hd)) h

theorem writeAll_no_cr {rs : List CsvRecord} (hcl : ∀ r ∈ rs, ∀ f ∈ r, cleanF f) :
    '\r' ∉ writeAll rs := by
  induction rs with
  | nil => simp [writeAll]
  | cons r rs' ih =>
    rw [show writeAll (r :: rs') = writeRecord r ++ writeAll rs' from rfl]
    intro h
    rcases List.mem_append.mp h with h | h
    · unfold writeRecord at h
      rcases List.mem_append.mp h with h | h
      · exact writeRecordAux_no_cr (hcl r (List.mem_cons_self r rs')) h
      · simp at h
    · exact ih (fun d hd => hcl d (List.mem_cons_of_mem r hd)) h

theorem normCRLF_id {cs : List Char} (h : '\r' ∉ cs) : normCRLF cs = cs := by
  induction cs with
  | nil => rfl
  | cons c rest ih =>
    match rest with
    | [] => rfl
    | c2 :: rest2 =>
      have hc : c ≠ '\r' := fun he => h (by simp [he])
      rw [show normCRLF (c :: c2 :: rest2) =
          if c = '\r' ∧ c2 = '\n' then '\n' :: normCRLF rest2
          else c :: normCRLF (c2 :: rest2) from rfl,
        if_neg (fun hand => hc hand.1), ih (fun hm => h (List.mem_cons_of_mem c hm))]

/-- The end-to-end writer–reader roundtrip at the record-stream level. -/
theorem parseRecords_writeAll (rs : List CsvRecord)
    (h : ∀ r ∈ rs, 2 ≤ r.length ∧ ∀ f ∈ r, cleanF f) :
    parseRecords (writeAll rs) = some rs := by
  unfold parseRecords
  rw [normCRLF_id (writeAll_no_cr (fun r hr => (h r hr).2)), runCsv_records rs h []]
  simp

/-- Leftover newline bytes after the last record are blank lines the
reader skips. -/
theorem runCsv_newlines (k : Nat) :
    ∀ recs : List CsvRecord,
    runCsv (List.replicate k '\n') Mode.rstart recs [] = some recs := by
  induction k with
  | zero => intro recs; simp [runCsv]
  | succ m ih =>
    intro recs
    rw [List.replicate_succ, runCsv_rstart_newline]
    exact ih recs

/-- Reading writer output followed by arbitrary further bytes: the
records are collected and the reader continues at a record boundary. -/
theorem runCsv_records_cont (rs : List CsvRecord)
    (h : ∀ r ∈ rs, 2 ≤ r.length ∧ ∀ f ∈ r, cleanF f) :
    ∀ (extra : List Char) (recs : List CsvRecord),
    runCsv (writeAll rs ++ extra) Mode.rstart recs [] =
      runCsv extra Mode.rstart (recs ++ rs) [] := by
  induction rs with
  | nil => intro extra recs; simp [writeAll]
  | cons r rs' ih =>
    intro extra recs
    have hr := h r (List.mem_cons_self r rs')
    match r, hr with
    | f :: f2 :: fs, hr =>
      rw [show writeAll ((f :: f2 :: fs) :: rs') = writeRecordAux (f :: f2 :: fs) ++
          '\n' :: writeAll rs' by simp [writeAll, writeRecord],
        List.append_assoc, List.cons_append]
      obtain ⟨c, t, het, hcne⟩ := writeRecordAux_head f f2 fs
        (hr.2 f (List.mem_cons_self f (f2 :: fs))) ('\n' :: (writeAll rs' ++ extra))
      rw [het, runCsv_rstart_eq_fstart hcne, ← het,
        runCsv_record (f :: f2 :: fs) (List.cons_ne_nil f (f2 :: fs)) hr.2,
        ih (fun d hd => h d (List.mem_cons_of_mem _ hd))]
      simp

/-- Concatenation of two record streams writes as the concatenation of
the two encodings. -/
theorem writeAll_append (rs ss : List CsvRecord) :
    writeAll (rs ++ ss) = writeAll rs ++ writeAll ss := by
  induction rs with
  | nil => simp [writeAll]
  | cons r rs' ih =>
    rw [List.cons_append, show writeAll (r :: (rs' ++ ss)) = writeRecord r ++
      writeAll (rs' ++ ss) from rfl, ih,
      show writeAll (r :: rs') = writeRecord r ++ writeAll rs' from rfl,
      List.append_assoc]

/-- Saving one more task appends exactly its encoded record line. -/
theorem saveContent_append_one (ts : List Task) (t : Task) :
    saveContent (ts ++ [t]) = saveContent ts ++ writeRecord (encodeTask t) := by
  unfold saveContent
  rw [List.map_append, List.map_singleton,
    show headerRecord :: (ts.map encodeTask ++ [encodeTask t]) =
      (headerRecord :: ts.map encodeTask) ++ [encodeTask t] from rfl,
    writeAll_append,
    show writeAll [encodeTask t] = writeRecord (encodeTask t) ++ [] from rfl,
    List.append_nil]

/-- Writer output of a nonempty record stream ends with a newline. -/
theorem writeAll_ends_newline (rs : List CsvRecord) (h : rs ≠ []) :
    ∃ e : List Char, writeAll rs = e ++ ['\n'] := by
  induction rs with
  | nil => exact absurd rfl h
  | cons r rs' ih =>
    match rs' with
    | [] =>
      refine ⟨writeRecordAux r, ?_⟩
      rw [show writeAll [r] = writeRecord r ++ writeAll [] from rfl]
      unfold writeRecord writeAll
      rw [List.append_nil]
    | r2 :: rs'' =>
      obtain ⟨e, he⟩ := ih (List.cons_ne_nil r2 rs'')
      refine ⟨writeRecord r ++ e, ?_⟩
      rw [show writeAll (r :: (r2 :: rs'')) = writeRecord r ++ writeAll (r2 :: rs'')
        from rfl, he, List.append_assoc]

/-! ## Integer codec roundtrip -/

theorem charDigit_natDigitChar (d : Nat) (hd : d ≤ 9) :
    charDigit (natDigitChar d) = some d := by
  interval_cases d <;> decide

theorem natDigitChar_of_ge (d : Nat) (hd : 9 ≤ d) : natDigitChar d = '9' := by
  obtain ⟨k, rfl⟩ : ∃ k, d = k + 9 := ⟨d - 9, by omega⟩
  rfl

theorem natDigitChar_spec (d : Nat) :
    natDigitChar d ≠ '\r' ∧ natDigitChar d ≠ '\n' ∧ natDigitChar d ≠ '-' ∧
      natDigitChar d ≠ '+' := by
  rcases le_or_lt d 9 with hd | hd
  · interval_cases d <;> exact ⟨by decide, by decide, by decide, by decide⟩
  · rw [natDigitChar_of_ge d (by omega)]
    exact ⟨by decide, by decide, by decide, by decide⟩

theorem mem_natCharsAux {c : Char} :
    ∀ {fuel n : Nat}, c ∈ natCharsAux fuel n → ∃ d, c = natDigitChar d := by
  intro fuel
  induction fuel with
  | zero => intro n h; simp [natCharsAux] at h
  | succ m ih =>
    intro n h
    by_cases hn : n = 0
    · rw [show natCharsAux (m + 1) n = if n = 0 then []
          else natCharsAux m (n / 10) ++ [natDigitChar (n % 10)] from rfl, if_pos hn] at h
      simp at h
    · rw [show natCharsAux (m + 1) n = if n = 0 then []
          else natCharsAux m (n / 10) ++ [natDigitChar (n % 10)] from rfl, if_neg hn] at h
      rcases List.mem_append.mp h with h | h
      · exact ih h
      · exact ⟨n % 10, by simpa using h⟩

theorem itoa_cleanF (n : Int) : cleanF (itoa n) := by
  have hb : ∀ c ∈ natChars n.natAbs, c ≠ '\r' ∧ c ≠ '\n' := by
    intro c hc
    unfold natChars at hc
    by_cases hz : n.natAbs = 0
    · rw [if_pos hz] at hc
      simp at hc
      exact ⟨by simp [hc], by simp [hc]⟩
    · rw [if_neg hz] at hc
      obtain ⟨d, rfl⟩ := mem_natCharsAux hc
      exact ⟨(natDigitChar_spec d).1, (natDigitChar_spec d).2.1⟩
  unfold itoa
  by_cases hneg : n < 0
  · rw [if_pos hneg]
    constructor <;> intro hm
    · rcases List.mem_cons.mp hm with h | h
      · exact absurd h.symm (by decide)
      · exact (hb _ h).1 rfl
    · rcases List.mem_cons.mp hm with h | h
      · exact absurd h.symm (by decide)
      · exact (hb _ h).2 rfl
  · rw [if_neg hneg]
    constructor <;> intro hm
    · exact (hb _ hm).1 rfl
    · exact (hb _ hm).2 rfl

theorem digitsToNatAux_append (acc : Nat) (xs ys : List Char) :
    digitsToNatAux acc (xs ++ ys) =
      (digitsToNatAux acc xs).bind (fun a => digitsToNatAux a ys) := by
  induction xs generalizing acc with
  | nil => simp [digitsToNatAux]
  | cons c xs' ih =>
    rw [List.cons_append]
    rw [show digitsToNatAux acc (c :: (xs' ++ ys)) =
        match charDigit c with
        | none => none
        | some d => digitsToNatAux (acc * 10 + d) (xs' ++ ys) from rfl,
      show digitsToNatAux acc (c :: xs') =
        match charDigit c with
        | none => none
        | some d => digitsToNatAux (acc * 10 + d) xs' from rfl]
    cases charDigit c with
    | none => rfl
    | some d => exact ih (acc * 10 + d)

theorem natCharsAux_spec (fuel : Nat) :
    ∀ n : Nat, n ≤ fuel → ∀ acc : Nat,
    digitsToNatAux acc (natCharsAux fuel n) =
      some (acc * 10 ^ (natCharsAux fuel n).length + n) := by
  induction fuel with
  | zero =>
    intro n hn acc
    interval_cases n
    simp [natCharsAux, digitsToNatAux]
  | succ m ih =>
    intro n hn acc
    by_cases hz : n = 0
    · subst hz
      rw [show natCharsAux (m + 1) 0 = [] from rfl]
      simp [digitsToNatAux]
    · rw [show natCharsAux (m + 1) n = if n = 0 then []
          else natCharsAux m (n / 10) ++ [natDigitChar (n % 10)] from rfl, if_neg hz]
      have hdiv : n / 10 ≤ m := by
        have := Nat.div_lt_self (Nat.pos_of_ne_zero hz) (by norm_num : (1:Nat) < 10)
        omega
      rw [digitsToNatAux_append, ih (n / 10) hdiv acc, Option.some_bind]
      have hstep : digitsToNatAux (acc * 10 ^ (natCharsAux m (n / 10)).length + n / 10)
          [natDigitChar (n % 10)] =
          some ((acc * 10 ^ (natCharsAux m (n / 10)).length + n / 10) * 10 + n % 10) := by
        rw [show digitsToNatAux (acc * 10 ^ (natCharsAux m (n / 10)).length + n / 10)
            [natDigitChar (n % 10)] =
            match charDigit (natDigitChar (n % 10)) with
            | none => none
            | some d => digitsToNatAux
                ((acc * 10 ^ (natCharsAux m (n / 10)).length + n / 10) * 10 + d) [] from rfl,
          charDigit_natDigitChar (n % 10) (by omega)]
        rfl
      rw [hstep]
      congr 1
      rw [List.length_append, List.length_singleton, pow_succ]
      have := Nat.div_add_mod n 10
      ring_nf
      omega

theorem natChars_shape (n : Nat) :
    ∃ d rest, natChars n = natDigitChar d :: rest := by
  unfold natChars
  by_cases hz : n = 0
  · rw [if_pos hz]
    exact ⟨0, [], rfl⟩
  · rw [if_neg hz]
    obtain ⟨fuel, hfuel⟩ : ∃ fuel, n = fuel ∧ n ≤ fuel := ⟨n, rfl, le_refl n⟩
    clear hfuel
    suffices h : ∀ fuel k, 0 < k → k ≤ fuel → ∃ d rest,
        natCharsAux fuel k = natDigitChar d :: rest by
      exact h n n (Nat.pos_of_ne_zero hz) (le_refl n)
    intro fuel
    induction fuel with
    | zero => intro k h1 h2; omega
    | succ m ih =>
      intro k h1 h2
      rw [show natCharsAux (m + 1) k = if k = 0 then []
          else natCharsAux m (k / 10) ++ [natDigitChar (k % 10)] from rfl,
        if_neg (by omega)]
      by_cases hq : k / 10 = 0
      · rw [hq, show natCharsAux m 0 = [] by cases m <;> rfl]
        exact ⟨k % 10, [], rfl⟩
      · have hdiv : k / 10 ≤ m := by
          have := Nat.div_lt_self h1 (by norm_num : (1:Nat) < 10)
          omega
        obtain ⟨d, rest, hrw⟩ := ih (k / 10) (Nat.pos_of_ne_zero hq) hdiv
        exact ⟨d, rest ++ [natDigitChar (k % 10)], by rw [hrw]; simp⟩

theorem digitsToNat_natChars (n : Nat) : digitsToNat (natChars n) = some n := by
  obtain ⟨d, rest, hshape⟩ := natChars_shape n
  rw [hshape, show digitsToNat (natDigitChar d :: rest) =
    digitsToNatAux 0 (natDigitChar d :: rest) from rfl, ← hshape]
  unfold natChars
  by_cases hz : n = 0
  · rw [if_pos hz, hz]
    decide
  · rw [if_neg hz, natCharsAux_spec n n (le_refl n) 0]
    simp

theorem atoi_itoa (n : Int) : atoi (itoa n) = some n := by
  unfold itoa
  by_cases hneg : n < 0
  · rw [if_pos hneg]
    rw [show atoi ('-' :: natChars n.natAbs) =
        if ('-' : Char) = '-' then (digitsToNat (natChars n.natAbs)).map (fun m => -(m : Int))
        else if ('-' : Char) = '+' then (digitsToNat (natChars n.natAbs)).map (fun m => (m : Int))
        else (digitsToNat ('-' :: natChars n.natAbs)).map (fun m => (m : Int)) from rfl,
      if_pos (show ('-' : Char) = '-' from rfl), digitsToNat_natChars]
    show some (-((n.natAbs : Nat) : Int)) = some n
    congr 1
    omega
  · rw [if_neg hneg]
    obtain ⟨d, rest, hshape⟩ := natChars_shape n.natAbs
    have hs := natDigitChar_spec d
    rw [hshape]
    rw [show atoi (natDigitChar d :: rest) =
        if natDigitChar d = '-' then (digitsToNat rest).map (fun m => -(m : Int))
        else if natDigitChar d = '+' then (digitsToNat rest).map (fun m => (m : Int))
        else (digitsToNat (natDigitChar d :: rest)).map (fun m => (m : Int)) from rfl,
      if_neg hs.2.2.1, if_neg hs.2.2.2, ← hshape, digitsToNat_natChars]
    show some (((n.natAbs : Nat) : Int)) = some n
    congr 1
    omega

/-! ## Timestamp codec roundtrip -/

theorem daysInMonth_le (y m : Nat) : daysInMonth y m ≤ 31 := by
  unfold daysInMonth
  split <;> (try split) <;> omega

theorem read2_pad2 (n : Nat) (hn : n ≤ 99) :
    read2 (natDigitChar (n / 10 % 10)) (natDigitChar (n % 10)) = some n := by
  unfold read2
  rw [charDigit_natDigitChar (n / 10 % 10) (by omega),
    charDigit_natDigitChar (n % 10) (by omega)]
  show some (10 * (n / 10 % 10) + n % 10) = some n
  congr 1
  omega

theorem read4_pad4 (n : Nat) (hn : n ≤ 9999) :
    read4 (natDigitChar (n / 1000 % 10)) (natDigitChar (n / 100 % 10))
      (natDigitChar (n / 10 % 10)) (natDigitChar (n % 10)) = some n := by
  unfold read4
  rw [charDigit_natDigitChar (n / 1000 % 10) (by omega),
    charDigit_natDigitChar (n / 100 % 10) (by omega),
    charDigit_natDigitChar (n / 10 % 10) (by omega),
    charDigit_natDigitChar (n % 10) (by omega)]
  show some (1000 * (n / 1000 % 10) + 100 * (n / 100 % 10) + 10 * (n / 10 % 10) + n % 10) =
    some n
  congr 1
  omega

theorem skipFrac_zone (off : Int) : skipFrac (zoneChars off) = some (zoneChars off) := by
  unfold zoneChars
  by_cases h0 : off = 0
  · rw [if_pos h0]; rfl
  · rw [if_neg h0]
    by_cases hneg : off < 0
    · rw [if_pos hneg]
      rw [show skipFrac ('-' :: (pad2 (off.natAbs / 60) ++ ':' :: pad2 (off.natAbs % 60))) =
        if ('-' : Char) = '.' then
          if ((pad2 (off.natAbs / 60) ++ ':' :: pad2 (off.natAbs % 60)).takeWhile
              (fun d => decide (48 ≤ d.toNat ∧ d.toNat ≤ 57))).isEmpty
          then none
          else some ((pad2 (off.natAbs / 60) ++ ':' :: pad2 (off.natAbs % 60)).dropWhile
              (fun d => decide (48 ≤ d.toNat ∧ d.toNat ≤ 57)))
        else some ('-' :: (pad2 (off.natAbs / 60) ++ ':' :: pad2 (off.natAbs % 60))) from rfl,
        if_neg (by decide)]
    · rw [if_neg hneg]
      rw [show skipFrac ('+' :: (pad2 (off.natAbs / 60) ++ ':' :: pad2 (off.natAbs % 60))) =
        if ('+' : Char) = '.' then
          if ((pad2 (off.natAbs / 60) ++ ':' :: pad2 (off.natAbs % 60)).takeWhile
              (fun d => decide (48 ≤ d.toNat ∧ d.toNat ≤ 57))).isEmpty
          then none
          else some ((pad2 (off.natAbs / 60) ++ ':' :: pad2 (off.natAbs % 60)).dropWhile
              (fun d => decide (48 ≤ d.toNat ∧ d.toNat ≤ 57)))
        else some ('+' :: (pad2 (off.natAbs / 60) ++ ':' :: pad2 (off.natAbs % 60))) from rfl,
        if_neg (by decide)]

theorem parseZone_zoneChars (off : Int) (h : off.natAbs ≤ 1439) :
    parseZone (zoneChars off) = some off := by
  unfold zoneChars
  by_cases h0 : off = 0
  · rw [if_pos h0, h0]; rfl
  · rw [if_neg h0]
    have hh : off.natAbs / 60 ≤ 99 := by omega
    have hm : off.natAbs % 60 ≤ 99 := by omega
    by_cases hneg : off < 0
    · rw [if_pos hneg]
      rw [show ('-' :: (pad2 (off.natAbs / 60) ++ ':' :: pad2 (off.natAbs % 60))) =
        ['-', natDigitChar (off.natAbs / 60 / 10 % 10), natDigitChar (off.natAbs / 60 % 10),
          ':', natDigitChar (off.natAbs % 60 / 10 % 10), natDigitChar (off.natAbs % 60 % 10)]
        by simp [pad2]]
      rw [show ∀ a b c d e : Char, parseZone ['-', a, b, c, d, e] =
          if c = ':' then
            match read2 a b, read2 d e with
            | some x, some y =>
              if x ≤ 23 ∧ y ≤ 59 then
                if ('-' : Char) = '+' then some ((x * 60 + y : Nat) : Int)
                else if ('-' : Char) = '-' then some (-((x * 60 + y : Nat) : Int))
                else none
              else none
            | _, _ => none
          else none from fun a b c d e => rfl,
        if_pos rfl, read2_pad2 (off.natAbs / 60) hh, read2_pad2 (off.natAbs % 60) hm]
      show (if off.natAbs / 60 ≤ 23 ∧ off.natAbs % 60 ≤ 59 then
          if ('-' : Char) = '+' then some ((off.natAbs / 60 * 60 + off.natAbs % 60 : Nat) : Int)
          else if ('-' : Char) = '-' then
            some (-((off.natAbs / 60 * 60 + off.natAbs % 60 : Nat) : Int))
          else none
        else none) = some off
      rw [if_pos (by omega : off.natAbs / 60 ≤ 23 ∧ off.natAbs % 60 ≤ 59),
        if_neg (by decide : ¬('-' : Char) = '+'), if_pos rfl]
      congr 1
      omega
    · rw [if_neg hneg]
      rw [show ('+' :: (pad2 (off.natAbs / 60) ++ ':' :: pad2 (off.natAbs % 60))) =
        ['+', natDigitChar (off.natAbs / 60 / 10 % 10), natDigitChar (off.natAbs / 60 % 10),
          ':', natDigitChar (off.natAbs % 60 / 10 % 10), natDigitChar (off.natAbs % 60 % 10)]
        by simp [pad2]]
      rw [show ∀ a b c d e : Char, parseZone ['+', a, b, c, d, e] =
          if c = ':' then
            match read2 a b, read2 d e with
            | some x, some y =>
              if x ≤ 23 ∧ y ≤ 59 then
                if ('+' : Char) = '+' then some ((x * 60 + y : Nat) : Int)
                else if ('+' : Char) = '-' then some (-((x * 60 + y : Nat) : Int))
                else none
              else none
            | _, _ => none
          else none from fun a b c d e => rfl,
        if_pos rfl, read2_pad2 (off.natAbs / 60) hh, read2_pad2 (off.natAbs % 60) hm]
      show (if off.natAbs / 60 ≤ 23 ∧ off.natAbs % 60 ≤ 59 then
          if ('+' : Char) = '+' then some ((off.natAbs / 60 * 60 + off.natAbs % 60 : Nat) : Int)
          else if ('+' : Char) = '-' then
            some (-((off.natAbs / 60 * 60 + off.natAbs % 60 : Nat) : Int))
          else none
        else none) = some off
      rw [if_pos (by omega : off.natAbs / 60 ≤ 23 ∧ off.natAbs % 60 ≤ 59), if_pos rfl]
      congr 1
      omega

theorem parseRFC3339_format (dt : DateTime) (h : validDT dt) :
    parseRFC3339 (formatRFC3339 dt) = some dt := by
  obtain ⟨y, mo, d, hr, mi, s, off⟩ := dt
  unfold validDT at h
  dsimp only at h
  obtain ⟨h1, h2, h3, h4, h5, h6, h7, h8, h9⟩ := h
  rw [show formatRFC3339 ⟨y, mo, d, hr, mi, s, off⟩ =
    natDigitChar (y / 1000 % 10) :: natDigitChar (y / 100 % 10) ::
    natDigitChar (y / 10 % 10) :: natDigitChar (y % 10) :: '-' ::
    natDigitChar (mo / 10 % 10) :: natDigitChar (mo % 10) :: '-' ::
    natDigitChar (d / 10 % 10) :: natDigitChar (d % 10) :: 'T' ::
    natDigitChar (hr / 10 % 10) :: natDigitChar (hr % 10) :: ':' ::
    natDigitChar (mi / 10 % 10) :: natDigitChar (mi % 10) :: ':' ::
    natDigitChar (s / 10 % 10) :: natDigitChar (s % 10) :: zoneChars off
    by simp [formatRFC3339, pad4, pad2]]
  rw [show ∀ (y1 y2 y3 y4 mo1 mo2 d1 d2 hr1 hr2 mi1 mi2 s1 s2 : Char) (rest : List Char),
      parseRFC3339 (y1 :: y2 :: y3 :: y4 :: '-' :: mo1 :: mo2 :: '-' :: d1 :: d2 :: 'T' ::
        hr1 :: hr2 :: ':' :: mi1 :: mi2 :: ':' :: s1 :: s2 :: rest) =
      if ('-' : Char) = '-' ∧ ('-' : Char) = '-' ∧ ('T' : Char) = 'T' ∧
          (':' : Char) = ':' ∧ (':' : Char) = ':' then
        match read4 y1 y2 y3 y4, read2 mo1 mo2, read2 d1 d2,
            read2 hr1 hr2, read2 mi1 mi2, read2 s1 s2 with
        | some y, some mo, some d, some h, some mi, some s =>
          if 1 ≤ mo ∧ mo ≤ 12 ∧ 1 ≤ d ∧ d ≤ daysInMonth y mo ∧
              h ≤ 23 ∧ mi ≤ 59 ∧ s ≤ 59 then
            match skipFrac rest with
            | none => none
            | some rest2 =>
              match parseZone rest2 with
              | none => none
              | some off2 => some ⟨y, mo, d, h, mi, s, off2⟩
          else none
        | _, _, _, _, _, _ => none
      else none
    from fun _ _ _ _ _ _ _ _ _ _ _ _ _ _ _ => rfl,
    if_pos (by decide),
    read4_pad4 y h1, read2_pad2 mo (by omega),
    read2_pad2 d (by have := daysInMonth_le y mo; omega),
    read2_pad2 hr (by omega), read2_pad2 mi (by omega), read2_pad2 s (by omega)]
  show (if 1 ≤ mo ∧ mo ≤ 12 ∧ 1 ≤ d ∧ d ≤ daysInMonth y mo ∧
      hr ≤ 23 ∧ mi ≤ 59 ∧ s ≤ 59 then
      match skipFrac (zoneChars off) with
      | none => none
      | some rest2 =>
        match parseZone rest2 with
        | none => none
        | some off2 => some (⟨y, mo, d, hr, mi, s, off2⟩ : DateTime)
    else none) = some (⟨y, mo, d, hr, mi, s, off⟩ : DateTime)
  rw [if_pos ⟨h2, h3, h4, h5, h6, h7, h8⟩, skipFrac_zone off]
  show (match parseZone (zoneChars off) with
    | none => none
    | some off2 => some (⟨y, mo, d, hr, mi, s, off2⟩ : DateTime)) =
      some (⟨y, mo, d, hr, mi, s, off⟩ : DateTime)
  rw [parseZone_zoneChars off h9]

/-! ## Boolean codec and record codec roundtrip -/

theorem parseBool_formatBool (b : Bool) : parseBool (formatBool b) = some b := by
  cases b <;> decide

theorem formatBool_cleanF (b : Bool) : cleanF (formatBool b) := by
  cases b <;> exact ⟨by decide, by decide⟩

theorem cleanF_nil : cleanF [] := ⟨by simp, by simp⟩

theorem cleanF_append {a b : List Char} (ha : cleanF a) (hb : cleanF b) :
    cleanF (a ++ b) := by
  constructor <;> intro hm <;> rcases List.mem_append.mp hm with h | h
  · exact ha.1 h
  · exact hb.1 h
  · exact ha.2 h
  · exact hb.2 h

theorem cleanF_cons {c : Char} {a : List Char} (h1 : c ≠ '\r') (h2 : c ≠ '\n')
    (ha : cleanF a) : cleanF (c :: a) := by
  constructor <;> intro hm <;> rcases List.mem_cons.mp hm with h | h
  · exact h1 h.symm
  · exact ha.1 h
  · exact h2 h.symm
  · exact ha.2 h

theorem cleanF_pad2 (n : Nat) : cleanF (pad2 n) :=
  cleanF_cons (natDigitChar_spec _).1 (natDigitChar_spec _).2.1
    (cleanF_cons (natDigitChar_spec _).1 (natDigitChar_spec _).2.1 cleanF_nil)

theorem cleanF_pad4 (n : Nat) : cleanF (pad4 n) :=
  cleanF_cons (natDigitChar_spec _).1 (natDigitChar_spec _).2.1
    (cleanF_cons (natDigitChar_spec _).1 (natDigitChar_spec _).2.1
      (cleanF_cons (natDigitChar_spec _).1 (natDigitChar_spec _).2.1
        (cleanF_cons (natDigitChar_spec _).1 (natDigitChar_spec _).2.1 cleanF_nil)))

theorem cleanF_zoneChars (off : Int) : cleanF (zoneChars off) := by
  unfold zoneChars
  by_cases h0 : off = 0
  · rw [if_pos h0]
    exact ⟨by decide, by decide⟩
  · rw [if_neg h0]
    by_cases hneg : off < 0
    · rw [if_pos hneg]
      exact cleanF_cons (by decide) (by decide) (cleanF_append (cleanF_pad2 _)
        (cleanF_cons (by decide) (by decide) (cleanF_pad2 _)))
    · rw [if_neg hneg]
      exact cleanF_cons (by decide) (by decide) (cleanF_append (cleanF_pad2 _)
        (cleanF_cons (by decide) (by decide) (cleanF_pad2 _)))

theorem formatRFC3339_cleanF (dt : DateTime) : cleanF (formatRFC3339 dt) := by
  unfold formatRFC3339
  refine cleanF_append ?_ (cleanF_zoneChars _)
  refine cleanF_append ?_ (cleanF_cons (by decide) (by decide) (cleanF_pad2 _))
  refine cleanF_append ?_ (cleanF_cons (by decide) (by decide) (cleanF_pad2 _))
  refine cleanF_append ?_ (cleanF_cons (by decide) (by decide) (cleanF_pad2 _))
  refine cleanF_append ?_ (cleanF_cons (by decide) (by decide) (cleanF_pad2 _))
  refine cleanF_append ?_ (cleanF_cons (by decide) (by decide) (cleanF_pad2 _))
  exact cleanF_pad4 _

theorem encodeTask_cleanF (t : Task) (h : cleanF t.description) :
    ∀ f ∈ encodeTask t, cleanF f := by
  intro f hf
  unfold encodeTask at hf
  rcases List.mem_cons.mp hf with hf | hf
  · exact hf ▸ itoa_cleanF t.id
  · rcases List.mem_cons.mp hf with hf | hf
    · exact hf ▸ h
    · rcases List.mem_cons.mp hf with hf | hf
      · exact hf ▸ formatRFC3339_cleanF t.createdAt
      · rcases List.mem_cons.mp hf with hf | hf
        · exact hf ▸ formatBool_cleanF t.isCompleted
        · simp at hf

theorem decodeRecord_encodeTask (t : Task) (hdt : validDT t.createdAt) :
    decodeRecord (encodeTask t) = t := by
  unfold decodeRecord encodeTask
  simp only [List.getD_cons_zero, List.getD_cons_succ]
  rw [atoi_itoa, parseRFC3339_format t.createdAt hdt, parseBool_formatBool]
  rfl

/-! ## Store-level roundtrip on freshly written content -/

theorem headerRecord_clean : ∀ f ∈ headerRecord, cleanF f := by
  intro f hf
  unfold headerRecord at hf
  rcases List.mem_cons.mp hf with h | h
  · exact h ▸ ⟨by decide, by decide⟩
  · rcases List.mem_cons.mp h with h | h
    · exact h ▸ ⟨by decide, by decide⟩
    · rcases List.mem_cons.mp h with h | h
      · exact h ▸ ⟨by decide, by decide⟩
      · rcases List.mem_cons.mp h with h | h
        · exact h ▸ ⟨by decide, by decide⟩
        · simp at h

theorem readAll_writeAll_header (rs : List CsvRecord) (h4 : ∀ r ∈ rs, r.length = 4)
    (hcl : ∀ r ∈ rs, ∀ f ∈ r, cleanF f) :
    readAll (writeAll (headerRecord :: rs)) = some (headerRecord :: rs) := by
  unfold readAll
  rw [parseRecords_writeAll (headerRecord :: rs) ?_]
  · have hsc : sameCounts (headerRecord :: rs) = true := by
      unfold sameCounts
      rw [List.all_eq_true]
      intro x hx
      simp [h4 x hx, headerRecord]
    dsimp only
    rw [if_pos hsc]
  · intro r hr
    rcases List.mem_cons.mp hr with h | h
    · subst h
      exact ⟨by decide, headerRecord_clean⟩
    · exact ⟨by rw [h4 r h]; omega, hcl r h⟩

theorem loadTasks_writeAll_header (rs : List CsvRecord) (h4 : ∀ r ∈ rs, r.length = 4)
    (hcl : ∀ r ∈ rs, ∀ f ∈ r, cleanF f) :
    loadTasks (writeAll (headerRecord :: rs)) = Except.ok (rs.map decodeRecord) := by
  unfold loadTasks
  rw [readAll_writeAll_header rs h4 hcl]
  have hall : rs.all (fun r => decide (4 ≤ r.length)) = true := by
    rw [List.all_eq_true]
    intro x hx
    simp [h4 x hx]
  dsimp only
  rw [if_pos hall]

theorem encodeTask_length (t : Task) : (encodeTask t).length = 4 := rfl

theorem loadTasks_saveContent (tasks : List Task)
    (h : ∀ t ∈ tasks, cleanF t.description ∧ validDT t.createdAt) :
    loadTasks (saveContent tasks) = Except.ok tasks := by
  unfold saveContent
  rw [loadTasks_writeAll_header (tasks.map encodeTask)
    (by intro r hr; obtain ⟨t, _, rfl⟩ := List.mem_map.mp hr; exact encodeTask_length t)
    (by intro r hr; obtain ⟨t, ht, rfl⟩ := List.mem_map.mp hr
        exact encodeTask_cleanF t (h t ht).1)]
  congr 1
  rw [List.map_map]
  conv_rhs => rw [← List.map_id tasks]
  apply List.map_congr_left
  intro t ht
  simp only [Function.comp_apply, id_eq]
  exact decodeRecord_encodeTask t (h t ht).2

/-- ReadAll of header-led writer output with trailing newline bytes. -/
theorem readAll_writeAll_header_pad (rs : List CsvRecord) (k : Nat)
    (h4 : ∀ r ∈ rs, r.length = 4) (hcl : ∀ r ∈ rs, ∀ f ∈ r, cleanF f) :
    readAll (writeAll (headerRecord :: rs) ++ List.replicate k '\n') =
      some (headerRecord :: rs) := by
  have hhyp : ∀ r ∈ headerRecord :: rs, 2 ≤ r.length ∧ ∀ f ∈ r, cleanF f := by
    intro r hr
    rcases List.mem_cons.mp hr with h | h
    · subst h
      exact ⟨by decide, headerRecord_clean⟩
    · exact ⟨by rw [h4 r h]; omega, hcl r h⟩
  unfold readAll parseRecords
  rw [normCRLF_id ?hcr]
  case hcr =>
    intro hm
    rcases List.mem_append.mp hm with h | h
    · exact writeAll_no_cr (fun r hr => (hhyp r hr).2) h
    · have := List.eq_of_mem_replicate h
      simp at this
  rw [runCsv_records_cont (headerRecord :: rs) hhyp (List.replicate k '\n') [],
    runCsv_newlines, List.nil_append]
  have hsc : sameCounts (headerRecord :: rs) = true := by
    unfold sameCounts
    rw [List.all_eq_true]
    intro x hx
    simp [h4 x hx, headerRecord]
  dsimp only
  rw [if_pos hsc]

/-- loadTasks of header-led writer output with trailing newline bytes. -/
theorem loadTasks_writeAll_header_pad (rs : List CsvRecord) (k : Nat)
    (h4 : ∀ r ∈ rs, r.length = 4) (hcl : ∀ r ∈ rs, ∀ f ∈ r, cleanF f) :
    loadTasks (writeAll (headerRecord :: rs) ++ List.replicate k '\n') =
      Except.ok (rs.map decodeRecord) := by
  unfold loadTasks
  rw [readAll_writeAll_header_pad rs k h4 hcl]
  have hall : rs.all (fun r => decide (4 ≤ r.length)) = true := by
    rw [List.all_eq_true]
    intro x hx
    simp [h4 x hx]
  dsimp only
  rw [if_pos hall]

/-- loadTasks of a save of clean, valid tasks with trailing newline
bytes returns exactly those tasks. -/
theorem loadTasks_saveContent_pad (ts : List Task) (k : Nat) (h : cleanTasks ts) :
    loadTasks (saveContent ts ++ List.replicate k '\n') = Except.ok ts := by
  unfold saveContent
  rw [loadTasks_writeAll_header_pad (ts.map encodeTask) k
    (by intro r hr; obtain ⟨t, _, rfl⟩ := List.mem_map.mp hr; exact encodeTask_length t)
    (by intro r hr; obtain ⟨t, ht, rfl⟩ := List.mem_map.mp hr
        exact encodeTask_cleanF t (h t ht).1)]
  congr 1
  rw [List.map_map]
  conv_rhs => rw [← List.map_id ts]
  apply List.map_congr_left
  intro t ht
  simp only [Function.comp_apply, id_eq]
  exact decodeRecord_encodeTask t (h t ht).2

/-! ## getNextID and the command loops -/

theorem le_foldl_maxId (l : List Task) :
    ∀ a : Int, a ≤ l.foldl (fun m t => if m < t.id then t.id else m) a := by
  induction l with
  | nil => intro a; exact le_refl a
  | cons t l' ih =>
    intro a
    refine le_trans ?_ (ih (if a < t.id then t.id else a))
    by_cases h : a < t.id
    · rw [if_pos h]; exact le_of_lt h
    · rw [if_neg h]

theorem mem_le_foldl_maxId (l : List Task) :
    ∀ a : Int, ∀ t ∈ l, t.id ≤ l.foldl (fun m t => if m < t.id then t.id else m) a := by
  induction l with
  | nil => intro a t ht; simp at ht
  | cons u l' ih =>
    intro a t ht
    rcases List.mem_cons.mp ht with h | h
    · subst h
      refine le_trans ?_ (le_foldl_maxId l' (if a < t.id then t.id else a))
      by_cases hc : a < t.id
      · rw [if_pos hc]
      · rw [if_neg hc]; omega
    · exact ih (if a < u.id then u.id else a) t h

theorem foldl_maxId_le (l : List Task) :
    ∀ a b : Int, a ≤ b → (∀ t ∈ l, t.id ≤ b) →
      l.foldl (fun m t => if m < t.id then t.id else m) a ≤ b := by
  induction l with
  | nil => intro a b hab _; exact hab
  | cons u l' ih =>
    intro a b hab hmem
    rw [List.foldl_cons]
    refine ih _ b ?_ (fun t ht => hmem t (List.mem_cons_of_mem u ht))
    have := hmem u (List.mem_cons_self u l')
    by_cases hc : a < u.id
    · rw [if_pos hc]; exact this
    · rw [if_neg hc]; exact hab

theorem foldl_maxId_attained (l : List Task) :
    ∀ a : Int, l.foldl (fun m t => if m < t.id then t.id else m) a = a ∨
      ∃ t ∈ l, l.foldl (fun m t => if m < t.id then t.id else m) a = t.id := by
  induction l with
  | nil => intro a; exact Or.inl rfl
  | cons u l' ih =>
    intro a
    rw [List.foldl_cons]
    rcases ih (if a < u.id then u.id else a) with h | ⟨t, ht, h⟩
    · by_cases hc : a < u.id
      · rw [if_pos hc] at h ⊢
        exact Or.inr ⟨u, List.mem_cons_self u l', h⟩
      · rw [if_neg hc] at h ⊢
        exact Or.inl h
    · exact Or.inr ⟨t, List.mem_cons_of_mem u ht, h⟩

theorem maxIdAcc_nonneg (l : List Task) : 0 ≤ maxIdAcc l := le_foldl_maxId l 0

theorem maxIdAcc_mem_le (l : List Task) : ∀ t ∈ l, t.id ≤ maxIdAcc l :=
  mem_le_foldl_maxId l 0

theorem maxIdAcc_le (l : List Task) (b : Int) (hb : 0 ≤ b) (h : ∀ t ∈ l, t.id ≤ b) :
    maxIdAcc l ≤ b := foldl_maxId_le l 0 b hb h

theorem maxIdAcc_attained (l : List Task) :
    maxIdAcc l = 0 ∨ ∃ t ∈ l, maxIdAcc l = t.id := foldl_maxId_attained l 0

theorem maxIdAcc_append_one (l : List Task) (t : Task) :
    maxIdAcc (l ++ [t]) = if maxIdAcc l < t.id then t.id else maxIdAcc l := by
  unfold maxIdAcc
  rw [List.foldl_append]
  rfl

theorem getNextID_addTask (d : List Char) (now : DateTime) (ts : List Task) :
    getNextID (addTask d now ts) = getNextID ts + 1 := by
  unfold addTask getNextID
  rw [maxIdAcc_append_one]
  dsimp only
  rw [if_pos (by omega : maxIdAcc ts < maxIdAcc ts + 1)]

theorem completeTasks_map_id (i : Int) (ts : List Task) :
    ((completeTasks i ts).1).map Task.id = ts.map Task.id := by
  induction ts with
  | nil => rfl
  | cons t ts' ih =>
    unfold completeTasks
    by_cases h : t.id = i
    · rw [if_pos h]
      rfl
    · rw [if_neg h]
      simp only [List.map_cons]
      rw [ih]

theorem maxIdAcc_eq_map (l : List Task) :
    maxIdAcc l = (l.map Task.id).foldl (fun m i => if m < i then i else m) 0 := by
  unfold maxIdAcc
  rw [List.foldl_map]

theorem maxIdAcc_completeTasks (i : Int) (ts : List Task) :
    maxIdAcc (completeTasks i ts).1 = maxIdAcc ts := by
  rw [maxIdAcc_eq_map, maxIdAcc_eq_map, completeTasks_map_id]

theorem deleteTasks_fst (i : Int) (ts : List Task) :
    (deleteTasks i ts).1 = ts.filter (fun t => !decide (t.id = i)) := by
  induction ts with
  | nil => rfl
  | cons t ts' ih =>
    unfold deleteTasks
    by_cases h : t.id = i
    · rw [if_pos h]
      dsimp only
      rw [List.filter_cons_of_neg (by simp [h])]
      exact ih
    · rw [if_neg h]
      dsimp only
      rw [List.filter_cons_of_pos (by simp [h])]
      rw [ih]

theorem completeTasks_first_match (i : Int) (ante : List Task) (t : Task)
    (post : List Task) (hante : ∀ u ∈ ante, u.id ≠ i) (ht : t.id = i) :
    completeTasks i (ante ++ t :: post) =
      (ante ++ { t with isCompleted := true } :: post, true) := by
  induction ante with
  | nil =>
    rw [List.nil_append]
    unfold completeTasks
    rw [if_pos ht]
    rfl
  | cons u ante' ih =>
    rw [List.cons_append]
    unfold completeTasks
    rw [if_neg (hante u (List.mem_cons_self u ante')),
      ih (fun v hv => hante v (List.mem_cons_of_mem u hv))]
    rfl

theorem listRows_no_flag (ts : List Task) :
    listRows false ts = ts.filter (fun t => !t.isCompleted) := by
  induction ts with
  | nil => rfl
  | cons t ts' ih =>
    unfold listRows
    by_cases h : t.isCompleted
    · rw [if_pos (by simp [h])]
      rw [List.filter_cons_of_neg (by simp [h])]
      exact ih
    · rw [if_neg (by simp [h])]
      rw [List.filter_cons_of_pos (by simp [h])]
      rw [ih]

theorem listRows_all_flag (ts : List Task) : listRows true ts = ts := by
  induction ts with
  | nil => rfl
  | cons t ts' ih =>
    unfold listRows
    rw [if_neg (by simp)]
    rw [ih]

/-! ## The byte-level effect of the complete command -/

theorem completeTasks_snd_false (i : Int) (ts : List Task)
    (h : (completeTasks i ts).2 = false) : (completeTasks i ts).1 = ts := by
  induction ts with
  | nil => rfl
  | cons t rest ih =>
    unfold completeTasks at h ⊢
    by_cases ht : t.id = i
    · rw [if_pos ht] at h
      simp at h
    · rw [if_neg ht] at h ⊢
      dsimp only at h ⊢
      rw [ih h]

theorem completeTasks_decomp (i : Int) (ts : List Task)
    (h : (completeTasks i ts).2 = true) :
    ∃ front t back, ts = front ++ t :: back ∧ t.id = i ∧
      (completeTasks i ts).1 = front ++ { t with isCompleted := true } :: back := by
  induction ts with
  | nil => simp [completeTasks] at h
  | cons u rest ih =>
    unfold completeTasks at h ⊢
    by_cases hu : u.id = i
    · rw [if_pos hu] at h ⊢
      exact ⟨[], u, rest, rfl, hu, rfl⟩
    · rw [if_neg hu] at h ⊢
      dsimp only at h ⊢
      obtain ⟨front, t, back, he, hid, hc⟩ := ih h
      exact ⟨u :: front, t, back, by rw [he, List.cons_append], hid,
        by rw [hc, List.cons_append]⟩

theorem complete_already_true (t : Task) (h : t.isCompleted = true) :
    { t with isCompleted := true } = t := by
  obtain ⟨a, b, c, d⟩ := t
  simp only at h
  rw [h]

theorem writeRecord_complete_len (t : Task) (h : t.isCompleted = false) :
    (writeRecord (encodeTask { t with isCompleted := true })).length + 1 =
      (writeRecord (encodeTask t)).length := by
  unfold encodeTask
  dsimp only
  rw [h]
  have h4 : (writeField (formatBool true)).length = 4 := by decide
  have h5 : (writeField (formatBool false)).length = 5 := by decide
  rw [show ∀ a b c d : CsvField, writeRecord [a, b, c, d] =
      writeField a ++ ',' :: (writeField b ++ ',' :: (writeField c ++ ',' :: writeField d))
        ++ ['\n'] from fun a b c d => rfl]
  rw [show ∀ a b c d : CsvField, writeRecord [a, b, c, d] =
      writeField a ++ ',' :: (writeField b ++ ',' :: (writeField c ++ ',' :: writeField d))
        ++ ['\n'] from fun a b c d => rfl]
  simp only [List.length_append, List.length_cons, List.length_singleton, h4, h5]
  omega

theorem saveContent_complete_len (front : List Task) (t : Task) (back : List Task)
    (h : t.isCompleted = false) :
    (saveContent (front ++ { t with isCompleted := true } :: back)).length + 1 =
      (saveContent (front ++ t :: back)).length := by
  have key : ∀ x : Task, saveContent (front ++ x :: back) =
      writeAll (headerRecord :: front.map encodeTask) ++
        (writeRecord (encodeTask x) ++ writeAll (back.map encodeTask)) := by
    intro x
    unfold saveContent
    rw [List.map_append, List.map_cons,
      show headerRecord :: (front.map encodeTask ++ encodeTask x :: back.map encodeTask) =
        (headerRecord :: front.map encodeTask) ++ (encodeTask x :: back.map encodeTask)
        from rfl,
      writeAll_append,
      show writeAll (encodeTask x :: back.map encodeTask) =
        writeRecord (encodeTask x) ++ writeAll (back.map encodeTask) from rfl]
  rw [key, key]
  simp only [List.length_append]
  have := writeRecord_complete_len t h
  omega

theorem completeTasks_clean (i : Int) (ts : List Task) (h : cleanTasks ts) :
    cleanTasks (completeTasks i ts).1 := by
  induction ts with
  | nil => intro t ht; simp [completeTasks] at ht
  | cons u rest ih =>
    unfold completeTasks
    by_cases hu : u.id = i
    · rw [if_pos hu]
      intro t ht
      rcases List.mem_cons.mp ht with hm | hm
      · rw [hm]
        exact h u (List.mem_cons_self u rest)
      · exact h t (List.mem_cons_of_mem u hm)
    · rw [if_neg hu]
      intro t ht
      rcases List.mem_cons.mp ht with hm | hm
      · rw [hm]
        exact h u (List.mem_cons_self u rest)
      · exact ih (fun v hv => h v (List.mem_cons_of_mem u hv)) t hm

/-! ## Reachable file shapes of delete-free histories -/

theorem FileOk_load (ts : List Task) (file : List Char) (hclean : cleanTasks ts)
    (hok : FileOk ts file) : loadTasks file = Except.ok ts := by
  rcases hok with ⟨hf, hts⟩ | ⟨k, hf⟩
  · rw [hf, hts]
    decide
  · rw [hf]
    exact loadTasks_saveContent_pad ts k hclean

theorem saveTasks_pad (ts' : List Task) (C : List Char) (k : Nat)
    (hpre : ∃ R, saveContent ts' = C ++ R) :
    ∃ k', saveTasks ts' (C ++ List.replicate k '\n') =
      saveContent ts' ++ List.replicate k' '\n' := by
  obtain ⟨R, hR⟩ := hpre
  refine ⟨k - R.length, ?_⟩
  unfold saveTasks
  rw [hR, List.length_append, ← List.drop_drop, List.drop_left, List.drop_replicate]

theorem saveTasks_shrink_one (ts' : List Task) (C : List Char) (k : Nat)
    (hlen : (saveContent ts').length + 1 = C.length) (hnl : ∃ e, C = e ++ ['\n']) :
    saveTasks ts' (C ++ List.replicate k '\n') =
      saveContent ts' ++ List.replicate (k + 1) '\n' := by
  obtain ⟨e, rfl⟩ := hnl
  have he : (saveContent ts').length = e.length := by
    rw [List.length_append, List.length_singleton] at hlen
    omega
  unfold saveTasks
  rw [List.append_assoc, List.singleton_append,
    show ('\n' :: List.replicate k '\n') = List.replicate (k + 1) '\n' from
      (List.replicate_succ '\n' k).symm,
    he, List.drop_left]

theorem runCmd_fileOk (ts : List Task) (file : List Char) (op : Op)
    (hclean : cleanTasks ts) (hok : FileOk ts file) (hop : goodNonDelete op) :
    FileOk (applyOp ts op) (runCmd file op) := by
  have hload := FileOk_load ts file hclean hok
  cases op with
  | add d now =>
    rw [show runCmd file (Op.add d now) = (addCmd d now file).1 from rfl]
    unfold addCmd
    rw [hload]
    dsimp only
    rw [show applyOp ts (Op.add d now) = addTask d now ts from rfl]
    rcases hok with ⟨hf, hts⟩ | ⟨k, hf⟩
    · subst hf
      refine Or.inr ⟨0, ?_⟩
      unfold saveTasks
      rw [List.drop_nil]
      rfl
    · subst hf
      refine Or.inr (saveTasks_pad (addTask d now ts) (saveContent ts) k ?_)
      exact ⟨writeRecord (encodeTask
        { id := getNextID ts, description := d, createdAt := now, isCompleted := false }),
        saveContent_append_one ts _⟩
  | complete i =>
    rw [show runCmd file (Op.complete i) = (completeCmd i file).1 from rfl]
    unfold completeCmd
    rw [hload]
    dsimp only
    rw [show applyOp ts (Op.complete i) = (completeTasks i ts).1 from rfl]
    by_cases hp : (completeTasks i ts).2 = true
    · rw [if_pos hp]
      dsimp only
      obtain ⟨front, t, back, hts, hid, hc⟩ := completeTasks_decomp i ts hp
      rcases hok with ⟨hf, hts0⟩ | ⟨k, hf⟩
      · exfalso
        rw [hts0] at hts
        simp at hts
      · subst hf
        by_cases htc : t.isCompleted = true
        · have hsame : (completeTasks i ts).1 = ts := by
            rw [hc, complete_already_true t htc, ← hts]
          rw [hsame]
          exact Or.inr (saveTasks_pad ts (saveContent ts) k ⟨[], (List.append_nil _).symm⟩)
        · have htf : t.isCompleted = false := by
            cases hbool : t.isCompleted
            · rfl
            · exact absurd hbool htc
          refine Or.inr ⟨k + 1, ?_⟩
          refine saveTasks_shrink_one _ _ k ?_ ?_
          · rw [hc, hts]
            exact saveContent_complete_len front t back htf
          · exact writeAll_ends_newline _ (List.cons_ne_nil _ _)
    · rw [if_neg hp]
      dsimp only
      rw [completeTasks_snd_false i ts (by simpa using hp)]
      exact hok
  | delete i => exact absurd hop (by simp [goodNonDelete])

theorem applyOp_clean (ts : List Task) (op : Op) (h : cleanTasks ts)
    (hop : goodNonDelete op) : cleanTasks (applyOp ts op) := by
  cases op with
  | add d now =>
    intro t ht
    rw [show applyOp ts (Op.add d now) = addTask d now ts from rfl] at ht
    unfold addTask at ht
    rcases List.mem_append.mp ht with hm | hm
    · exact h t hm
    · rcases List.mem_singleton.mp hm with rfl
      exact ⟨hop.1, hop.2⟩
  | complete i =>
    exact completeTasks_clean i ts h
  | delete i => exact absurd hop (by simp [goodNonDelete])

/-! ## Store-history invariants -/

theorem maxIdAcc_addTask (d : List Char) (now : DateTime) (ts : List Task) :
    maxIdAcc (addTask d now ts) = maxIdAcc ts + 1 := by
  have := getNextID_addTask d now ts
  unfold getNextID at this
  omega

theorem getNextID_all_adds (ops : List Op) :
    ∀ ts : List Task, (∀ op ∈ ops, isAdd op = true) →
    getNextID (List.foldl applyOp ts ops) = getNextID ts + ops.length := by
  induction ops with
  | nil => intro ts _; simp
  | cons op rest ih =>
    intro ts hall
    have hop := hall op (List.mem_cons_self op rest)
    cases op with
    | add d now =>
      rw [List.foldl_cons, ih (applyOp ts (Op.add d now))
        (fun o ho => hall o (List.mem_cons_of_mem _ ho))]
      show getNextID (addTask d now ts) + rest.length = getNextID ts + (rest.length + 1)
      rw [getNextID_addTask]
      omega
    | complete i => simp [isAdd] at hop
    | delete i => simp [isAdd] at hop

theorem assignedIDsFile_chain (ops : List Op) :
    ∀ (ts : List Task) (file : List Char), cleanTasks ts → FileOk ts file →
    (∀ op ∈ ops, goodNonDelete op) →
    List.Chain' (· < ·) (assignedIDsFile file ops) ∧
      ∀ a ∈ assignedIDsFile file ops, maxIdAcc ts < a := by
  induction ops with
  | nil =>
    intro ts file _ _ _
    exact ⟨List.chain'_nil, by intro a ha; simp [assignedIDsFile] at ha⟩
  | cons op rest ih =>
    intro ts file hclean hok hops
    have hop := hops op (List.mem_cons_self op rest)
    have hrest := fun o ho => hops o (List.mem_cons_of_mem op ho)
    have hstep := runCmd_fileOk ts file op hclean hok hop
    have hstepc := applyOp_clean ts op hclean hop
    have ihA := ih (applyOp ts op) (runCmd file op) hstepc hstep hrest
    cases op with
    | add d now =>
      have hload := FileOk_load ts file hclean hok
      rw [show assignedIDsFile file (Op.add d now :: rest) =
        (match loadTasks file with
         | Except.ok ts0 =>
             getNextID ts0 :: assignedIDsFile (runCmd file (Op.add d now)) rest
         | Except.error _ => assignedIDsFile (runCmd file (Op.add d now)) rest)
        from rfl, hload]
      dsimp only
      have hmax : maxIdAcc (applyOp ts (Op.add d now)) = maxIdAcc ts + 1 :=
        maxIdAcc_addTask d now ts
      constructor
      · rw [List.chain'_cons']
        refine ⟨?_, ihA.1⟩
        intro b hb
        have := ihA.2 b (List.mem_of_mem_head? hb)
        unfold getNextID
        omega
      · intro a ha
        rcases List.mem_cons.mp ha with h | h
        · rw [h]
          unfold getNextID
          omega
        · have := ihA.2 a h
          omega
    | complete i =>
      rw [show assignedIDsFile file (Op.complete i :: rest) =
        assignedIDsFile (runCmd file (Op.complete i)) rest from rfl]
      have hmax : maxIdAcc (applyOp ts (Op.complete i)) = maxIdAcc ts :=
        maxIdAcc_completeTasks i ts
      exact ⟨ihA.1, fun a ha => by have := ihA.2 a ha; omega⟩
    | delete i => exact absurd hop (by simp [goodNonDelete])

theorem step_eq_max (m : Int) (t : Task) : (if m < t.id then t.id else m) = max m t.id := by
  rcases lt_or_ge m t.id with h | h
  · rw [if_pos h, max_eq_right (le_of_lt h)]
  · rw [if_neg (not_lt.mpr h), max_eq_left h]

theorem foldl_step_eq_max (l : List Task) :
    ∀ a : Int, l.foldl (fun m t => if m < t.id then t.id else m) a =
      l.foldl (fun m t => max m t.id) a := by
  induction l with
  | nil => intro a; rfl
  | cons t l' ih =>
    intro a
    rw [List.foldl_cons, List.foldl_cons, step_eq_max, ih]

theorem getNextID_spec (ts : List Task) (hne : ts ≠ [])
    (hpos : ∀ t ∈ ts, 0 ≤ t.id) : getNextID ts = 1 + specMaxId ts := by
  match ts, hne with
  | t :: rest, _ =>
    unfold getNextID maxIdAcc
    rw [List.foldl_cons]
    have hstep : (if (0 : Int) < t.id then t.id else 0) = t.id := by
      have := hpos t (List.mem_cons_self t rest)
      by_cases h : (0 : Int) < t.id
      · rw [if_pos h]
      · rw [if_neg h]
        omega
    rw [hstep, foldl_step_eq_max,
      show specMaxId (t :: rest) = rest.foldl (fun a u => max a u.id) t.id from rfl]
    omega

/-! ## The claims -/

set_option maxRecDepth 1000000

/-- C1: the claim that saveAll-then-loadAll returns exactly the saved
sequence even when the new encoding is shorter than the previous file
content is violated by the code: saveTasks opens without O_TRUNC and
leaves the tail of the longer old content in place.  Saving [task1, task2]
into an empty file and then saving just [task2] leaves a file that loads
as [task2, task2], not [task2]. -/
theorem c1_save_not_truncating :
    loadTasks (saveTasks [task2] (saveTasks [task1, task2] [])) =
      Except.ok [task2, task2] ∧
    ([task2, task2] : List Task) ≠ [task2] := by
  constructor
  · decide
  · decide

/-- C2: decode of encode is the identity on every valid task, including
descriptions holding the comma field delimiter or quotes: the single
encoded record line parses back to exactly the four encoded fields, and
field decoding returns the original task. -/
theorem c2_roundtrip (t : Task) (h : validTask t) :
    parseRecords (writeRecord (encodeTask t)) = some [encodeTask t] ∧
      decodeRecord (encodeTask t) = t := by
  constructor
  · rw [show writeRecord (encodeTask t) = writeAll [encodeTask t] by
      unfold writeAll
      rw [show writeAll ([] : List CsvRecord) = [] from rfl, List.append_nil]]
    exact parseRecords_writeAll [encodeTask t] (by
      intro r hr
      rcases List.mem_singleton.mp hr with rfl
      exact ⟨by rw [encodeTask_length]; omega, encodeTask_cleanF t h.2.1⟩)
  · exact decodeRecord_encodeTask t h.2.2

/-- C2 witness: the roundtrip at a concrete task whose description holds
commas, quotes and a space. -/
theorem c2_roundtrip_witness :
    validTask ⟨3, ['h', 'i', ',', ' ', '"', 'x', '"'], dtSample, true⟩ ∧
    decodeRecord (encodeTask ⟨3, ['h', 'i', ',', ' ', '"', 'x', '"'], dtSample, true⟩) =
      ⟨3, ['h', 'i', ',', ' ', '"', 'x', '"'], dtSample, true⟩ :=
  ⟨by decide, (c2_roundtrip ⟨3, ['h', 'i', ',', ' ', '"', 'x', '"'], dtSample, true⟩
    (by decide)).2⟩

/-- C3 counterexample: the claim "deleting a task and then adding a new
one never reassigns the deleted task's ID; assigned IDs strictly
increase" is false of the program at the byte level: in the history
add a, add bb, delete 1, delete 2, add c, the first delete's shorter save
leaves a misaligned stale tail that chops the ID digit off the surviving
record (a phantom ID-0 record), the second delete removes the only
record with a positive ID, and the final add reassigns the deleted ID 1:
the assigned IDs are 1, 2, 1. -/
theorem c3_counterexample_file :
    assignedIDsFile [] garbleOps = [1, 2, 1] ∧
    ¬ List.Chain' (· < ·) (assignedIDsFile [] garbleOps) := by
  have h1 : assignedIDsFile [] garbleOps = [1, 2, 1] := by decide
  refine ⟨h1, ?_⟩
  rw [h1]
  intro hch
  rw [List.chain'_cons, List.chain'_cons] at hch
  exact absurd hch.2.1 (by omega)

/-- C3 amended: over delete-free histories of command invocations
against the store file — adds carrying record-delimiter-free
descriptions and representable timestamps, and completes — the IDs
assigned by the add commands strictly increase at the file level.  (A
delete voids the guarantee: its non-truncating save can garble the
record bytes, as the counterexample shows.) -/
theorem c3_ids_increase_without_delete (ops : List Op)
    (h : ∀ op ∈ ops, goodNonDelete op) :
    List.Chain' (· < ·) (assignedIDsFile [] ops) :=
  (assignedIDsFile_chain ops [] [] (by intro t ht; simp at ht)
    (Or.inl ⟨rfl, rfl⟩) h).1

/-- C3 witness: add, complete the task, add again — the file-level
assigned IDs 1, 2 strictly increase. -/
theorem c3_ids_increase_without_delete_witness :
    (∀ op ∈ noDeleteOps, goodNonDelete op) ∧
    List.Chain' (· < ·) (assignedIDsFile [] noDeleteOps) ∧
    assignedIDsFile [] noDeleteOps = [1, 2] :=
  ⟨by decide, c3_ids_increase_without_delete noDeleteOps (by decide), by decide⟩

/-- C4: on a record stream beginning with the standard header, loadTasks
succeeds on every well-formed stream of four-field records no matter how
malformed the individual fields are — each bad field decodes to its
type's zero value while every record still loads — and fails with the
decode error exactly on a structurally malformed stream, such as a record
after the header with the wrong field count. -/
theorem c4_lenient_decode (rs : List CsvRecord) (h4 : ∀ r ∈ rs, r.length = 4)
    (hcl : ∀ r ∈ rs, ∀ f ∈ r, cleanF f) :
    loadTasks (writeAll (headerRecord :: rs)) = Except.ok (rs.map decodeRecord) ∧
    loadTasks (writeAll (headerRecord :: [corruptRecord])) =
      Except.ok [⟨0, ['d'], zeroDateTime, false⟩] ∧
    loadTasks (writeAll (headerRecord :: [[['1'], ['a'], ['b']]])) =
      Except.error LoadErr.decodeErr := by
  refine ⟨loadTasks_writeAll_header rs h4 hcl, ?_, ?_⟩
  · decide
  · decide

/-- C4 witness: a good record and a field-corrupted record load together;
the corrupted fields fall back to zero values and the good record is
decoded intact. -/
theorem c4_lenient_decode_witness :
    (∀ r ∈ mixedRecords, r.length = 4) ∧ (∀ r ∈ mixedRecords, ∀ f ∈ r, cleanF f) ∧
    loadTasks (writeAll (headerRecord :: mixedRecords)) =
      Except.ok (mixedRecords.map decodeRecord) ∧
    mixedRecords.map decodeRecord = [task1, ⟨0, ['d'], zeroDateTime, false⟩] :=
  ⟨by decide, by decide,
    (c4_lenient_decode mixedRecords (by decide) (by decide)).1, by decide⟩

/-- C6: after N adds from the empty store getNextID is N + 1; in general
getNextID is 1 plus the maximum ID of a nonempty list of tasks with
nonnegative IDs, and 1 on the empty list. -/
theorem c6_next_id :
    (∀ ops : List Op, (∀ op ∈ ops, isAdd op = true) →
      getNextID (execOps ops) = ops.length + 1) ∧
    (∀ ts : List Task, ts ≠ [] → (∀ t ∈ ts, 0 ≤ t.id) →
      getNextID ts = 1 + specMaxId ts) ∧
    getNextID [] = 1 := by
  refine ⟨?_, getNextID_spec, by decide⟩
  intro ops hall
  unfold execOps
  rw [getNextID_all_adds ops [] hall]
  have : getNextID [] = 1 := by decide
  omega

/-- C6 witness: three adds from the empty store leave getNextID at 4, and
getNextID of {task1, task2} is 1 plus their maximal ID. -/
theorem c6_next_id_witness :
    getNextID (execOps [Op.add ['a'] dtSample, Op.add ['b'] dtSample,
      Op.add ['c'] dtSample]) =
      ([Op.add ['a'] dtSample, Op.add ['b'] dtSample, Op.add ['c'] dtSample] :
        List Op).length + 1 ∧
    getNextID [task1, task2] = 1 + specMaxId [task1, task2] :=
  ⟨c6_next_id.1 [Op.add ['a'] dtSample, Op.add ['b'] dtSample, Op.add ['c'] dtSample]
    (by decide),
   c6_next_id.2.1 [task1, task2] (by decide) (by decide)⟩

/-- C7: the claimed invariant — every successful save writes a task list
with pairwise distinct IDs — is violated by the code: after add a, add b,
delete 1 from the empty store, the delete's shorter save leaves the old
second record's bytes in place, the file loads as [task2, task2], and
the next add successfully saves the list with IDs 2, 2, 3.  The root
cause is the same missing truncation as in the save/load claim. -/
theorem c7_duplicate_ids_saved :
    loadTasks (execCmds resurrectOps) = Except.ok [task2, task2] ∧
    (addTask ['c'] dtSample [task2, task2]).map Task.id = [2, 2, 3] ∧
    ¬ ((addTask ['c'] dtSample [task2, task2]).map Task.id).Pairwise (· ≠ ·) ∧
    loadTasks (execCmds (resurrectOps ++ [Op.add ['c'] dtSample])) =
      Except.ok [task2, task2, ⟨3, ['c'], dtSample, false⟩] := by
  have h2 : (addTask ['c'] dtSample [task2, task2]).map Task.id = [2, 2, 3] := by decide
  refine ⟨by decide, h2, ?_, by decide⟩
  rw [h2]
  intro hp
  rw [List.pairwise_cons] at hp
  exact absurd (hp.1 2 (by simp) : (2 : Int) ≠ 2) (by omega)

/-- C8: listing without the all flag shows exactly the tasks whose
completion flag is false; with the flag it shows every task. -/
theorem c8_list_rows (ts : List Task) :
    listRows false ts = ts.filter (fun t => !t.isCompleted) ∧
    listRows true ts = ts ∧
    ∀ t, t ∈ listRows false ts ↔ t ∈ ts ∧ t.isCompleted = false := by
  refine ⟨listRows_no_flag ts, listRows_all_flag ts, ?_⟩
  intro t
  rw [listRows_no_flag, List.mem_filter]
  simp

/-- C10: with duplicate IDs in the loaded list, complete marks only the
first task carrying the ID (the loop breaks), while delete removes every
task carrying the ID (the loop never breaks). -/
theorem c10_first_match_vs_all (i : Int) (ante : List Task) (t : Task)
    (post : List Task) (hante : ∀ u ∈ ante, u.id ≠ i) (ht : t.id = i)
    (ts : List Task) :
    completeTasks i (ante ++ t :: post) =
      (ante ++ { t with isCompleted := true } :: post, true) ∧
    (deleteTasks i ts).1 = ts.filter (fun u => !decide (u.id = i)) :=
  ⟨completeTasks_first_match i ante t post hante ht, deleteTasks_fst i ts⟩

/-- C10 witness: two tasks both carrying ID 1; complete(1) marks only the
first, delete(1) removes both. -/
theorem c10_first_match_vs_all_witness :
    completeTasks 1 ([] ++ (⟨1, ['a'], dtSample, false⟩ : Task) ::
        [⟨1, ['b'], dtSample, false⟩]) =
      ([] ++ (⟨1, ['a'], dtSample, true⟩ : Task) :: [⟨1, ['b'], dtSample, false⟩], true) ∧
    (deleteTasks 1 [⟨1, ['a'], dtSample, false⟩, ⟨1, ['b'], dtSample, false⟩]).1 =
      [⟨1, ['a'], dtSample, false⟩, ⟨1, ['b'], dtSample, false⟩].filter
        (fun u => !decide (u.id = 1)) :=
  ⟨(c10_first_match_vs_all 1 [] ⟨1, ['a'], dtSample, false⟩ [⟨1, ['b'], dtSample, false⟩]
      (by decide) (by decide) [⟨1, ['a'], dtSample, false⟩, ⟨1, ['b'], dtSample, false⟩]).1,
   (c10_first_match_vs_all 1 [] ⟨1, ['a'], dtSample, false⟩ [⟨1, ['b'], dtSample, false⟩]
      (by decide) (by decide) [⟨1, ['a'], dtSample, false⟩, ⟨1, ['b'], dtSample, false⟩]).2⟩

end TodoGo
